import Mathlib

/-!
Verification of the response-normalization pipeline of the OpenAIAsk node
(`node_openai_ask.py`).  Strings are modelled as `List Char` (Unicode code
points, exactly what Python's `re` scans).  The regex-driven label scanning is
embedded as explicit matching functions; greedy `\s*` runs are modelled by
maximal whitespace munching, which is exact here because every character that
can legally follow such a run (a label letter, a colon) is never whitespace,
so the regex engine never needs to backtrack into the run.
-/

namespace OpenAIAsk

/-- Model of Python's `\s` for the characters the scanner meets.  (Python also
treats some exotic Unicode spaces as `\s`; none occur in the label sets.) -/
def isSpaceChar (c : Char) : Bool :=
  c == ' ' || c == '\t' || c == '\n' || c == '\r' || c == '\x0b' || c == '\x0c'

/-- Model of Python's `\w` (Unicode word character) for the character classes
involved: ASCII alphanumerics, underscore, and CJK unified ideographs (which
Python 3 counts as word characters — the labels 负向/负面/避免/不要 etc. all lie
in U+4E00..U+9FFF). -/
def isWordChar (c : Char) : Bool :=
  c.isAlphanum || c == '_' || (0x4E00 ≤ c.toNat && c.toNat ≤ 0x9FFF)

/-- Python `str.lstrip()` / a greedy `\s*`. -/
def lstrip (l : List Char) : List Char := l.dropWhile isSpaceChar

/-- Python `str.rstrip()`. -/
def rstrip (l : List Char) : List Char := (l.reverse.dropWhile isSpaceChar).reverse

/-- Python `str.strip()`. -/
def strip (l : List Char) : List Char := rstrip (lstrip l)

/-- Python `text.replace("\r\n", "\n")` (left-to-right, non-overlapping). -/
def normalizeNewlines : List Char → List Char
  | [] => []
  | [c] => [c]
  | c :: d :: rest =>
    if c = '\r' ∧ d = '\n' then '\n' :: normalizeNewlines rest
    else c :: normalizeNewlines (d :: rest)

/-- Case-insensitive character comparison against a lowercase pattern
character, as `re.IGNORECASE` behaves on the ASCII/CJK alphabet of the label
sets. -/
def eqCI (c a : Char) : Bool :=
  c == a || (c.toNat + 32 == a.toNat && 65 ≤ c.toNat && c.toNat ≤ 90)

/-- Match a literal (stored lowercase) case-insensitively at the head of `s`,
returning the rest of `s` on success. -/
def matchLitCI : List Char → List Char → Option (List Char)
  | [], s => some s
  | _ :: _, [] => none
  | a :: as, c :: cs => if eqCI c a then matchLitCI as cs else none

/-- Try each literal alternative in regex alternation order. -/
def matchAnyLitCI : List (List Char) → List Char → Option (List Char)
  | [], _ => none
  | lit :: rest, s =>
    match matchLitCI lit s with
    | some r => some r
    | none => matchAnyLitCI rest s

/-- The trailing `\s*[:：]\s*` of every label pattern: optional spaces, a
mandatory ASCII or full-width colon, optional spaces.  Returns what follows. -/
def afterLabel (s : List Char) : Option (List Char) :=
  match lstrip s with
  | c :: rest => if c == ':' || c == '：' then some (lstrip rest) else none
  | [] => none

/-- `lstrip` that also reports the last whitespace character it dropped (needed
to decide whether a removed `re.sub` match ended just after a newline). -/
def lstripInfo : List Char → List Char × Option Char
  | [] => ([], none)
  | c :: rest =>
    if isSpaceChar c then
      match lstripInfo rest with
      | (r, some d) => (r, some d)
      | (r, none) => (r, some c)
    else (c :: rest, none)

/-- As `afterLabel`, additionally reporting whether the consumed span ended
with a newline (so that the next scan position is a line start). -/
def afterLabelInfo (s : List Char) : Option (List Char × Bool) :=
  match lstrip s with
  | c :: rest =>
    if c == ':' || c == '：' then
      match lstripInfo rest with
      | (r, d) => some (r, d == some '\n')
    else none
  | [] => none

/-- Run label alternatives in order, each completed by `afterLabel`; the first
alternative whose label *and* colon part both match wins — exactly the regex
engine's leftmost-alternation backtracking for these patterns. -/
def firstColon : List (List Char → Option (List Char)) → List Char → Option (List Char)
  | [], _ => none
  | f :: fs, s =>
    match (f s).bind afterLabel with
    | some r => some r
    | none => firstColon fs s

/-- As `firstColon` but via `afterLabelInfo` (for the `re.sub` cleanups). -/
def firstColonInfo : List (List Char → Option (List Char)) → List Char → Option (List Char × Bool)
  | [], _ => none
  | f :: fs, s =>
    match (f s).bind afterLabelInfo with
    | some r => some r
    | none => firstColonInfo fs s

def litPrompt : List Char := ( "prompt").data
def litPositive : List Char := ( "positive").data
def litTishici : List Char := ( "提示词").data
def litZhengxiang : List Char := ( "正向").data
def litNegative : List Char := ( "negative").data
def litNeg : List Char := ( "neg").data
def litAvoid : List Char := ( "avoid").data
def litDisallow : List Char := ( "disallow").data
def litDo : List Char := ( "do").data
def litNot : List Char := ( "not").data
def litFuxiang : List Char := ( "负向").data
def litFumian : List Char := ( "负面").data
def litBimian : List Char := ( "避免").data
def litBuyao : List Char := ( "不要").data

/-- Alternative `negative\s*prompt` of the negative-label regex. -/
def negAltNegPrompt (s : List Char) : Option (List Char) :=
  match matchLitCI litNegative s with
  | some r => matchLitCI litPrompt (lstrip r)
  | none => none

/-- Alternative `do\s*not` of the negative-label regex. -/
def negAltDoNot (s : List Char) : Option (List Char) :=
  match matchLitCI litDo s with
  | some r => matchLitCI litNot (lstrip r)
  | none => none

/-- The alternation `negative\s*prompt|negative|neg|avoid|disallow|do\s*not|负向|负面|避免|不要`
in source order (shared by `neg_re` of step 2 and the step-3 negative cleanup). -/
def negAlts : List (List Char → Option (List Char)) :=
  [negAltNegPrompt, matchLitCI litNegative, matchLitCI litNeg,
   matchLitCI litAvoid, matchLitCI litDisallow, negAltDoNot,
   matchLitCI litFuxiang, matchLitCI litFumian, matchLitCI litBimian, matchLitCI litBuyao]

/-- Alternation `prompt|positive|提示词|正向` of the step-1 preamble regex. -/
def posAltsStepOne : List (List Char → Option (List Char)) :=
  [matchLitCI litPrompt, matchLitCI litPositive, matchLitCI litTishici, matchLitCI litZhengxiang]

/-- Alternation `positive|prompt|提示词|正向` of the step-3 positive cleanup. -/
def posAltsCleanup : List (List Char → Option (List Char)) :=
  [matchLitCI litPositive, matchLitCI litPrompt, matchLitCI litTishici, matchLitCI litZhengxiang]

/-- Attempt of step 1's `\s*(prompt|positive|提示词|正向)\s*[:：]\s*` at the
current position (after the `(?:^|\n)` anchor was satisfied). -/
def tryPosLabelCore (s : List Char) : Option (List Char) :=
  firstColon posAltsStepOne (lstrip s)

/-- Scan for the first `\n`-anchored occurrence of the step-1 marker. -/
def searchPosAfterNL : List Char → Option (List Char)
  | [] => none
  | c :: rest =>
    if c == '\n' then
      match tryPosLabelCore rest with
      | some r => some r
      | none => searchPosAfterNL rest
    else searchPosAfterNL rest

/-- `re.search(r'(?is)(?:^|\n)\s*(prompt|positive|提示词|正向)\s*[:：]\s*', s)`,
returning the text after the end of the leftmost match.  The `^` branch (start
of text — no MULTILINE flag on this regex) is tried first, then every `\n`
anchor left to right. -/
def searchPosLabel (s : List Char) : Option (List Char) :=
  match tryPosLabelCore s with
  | some r => some r
  | none => searchPosAfterNL s

/-- Attempt of the negative-label group + colon at the current position
(without the word-boundary test). -/
def tryNegLabelAt (s : List Char) : Option (List Char) :=
  firstColon negAlts s

/-- Attempt of `\b(negative\s*prompt|…)\s*[:：]\s*` at a position whose
preceding character's word-ness is `pw`.  Every alternative starts with a word
character, so the boundary holds exactly when the previous character is not a
word character (or the position is the start of text, `pw = false`). -/
def tryNegAt (pw : Bool) (s : List Char) : Option (List Char) :=
  if pw then none else tryNegLabelAt s

/-- Left-to-right scan of `neg_re.search`: `pre` accumulates the reversed
prefix before the current position; on the leftmost match the pair
(text before match start, text after match end) is returned. -/
def searchNegAux (pw : Bool) (pre : List Char) : List Char → Option (List Char × List Char)
  | [] => none
  | c :: rest =>
    match tryNegAt pw (c :: rest) with
    | some after => some (pre.reverse, after)
    | none => searchNegAux (isWordChar c) (c :: pre) rest

/-- `neg_re.search(s)` of step 2. -/
def searchNeg (s : List Char) : Option (List Char × List Char) :=
  searchNegAux false [] s

/-- Attempt of the step-3 positive cleanup pattern
`^\s*(positive|prompt|提示词|正向)\s*[:：]\s*` at a line start. -/
def tryCleanPosAt (s : List Char) : Option (List Char × Bool) :=
  firstColonInfo posAltsCleanup (lstrip s)

/-- Attempt of the step-3 negative cleanup pattern at a line start. -/
def tryCleanNegAt (s : List Char) : Option (List Char × Bool) :=
  firstColonInfo negAlts (lstrip s)

/-- `re.sub(pattern, '', s)` for the `(?im)^…`-anchored cleanup patterns:
walk the string, attempting the pattern at the start of text and after every
newline; a removed span whose last character was a newline leaves the scanner
at a line start.  Each removed span consumes at least two characters (a label
and a colon) and each copied character consumes one, so fuel `s.length + 1`
never runs out. -/
def cleanupGo (tryAt : List Char → Option (List Char × Bool)) :
    Nat → Bool → List Char → List Char
  | 0, _, s => s
  | _ + 1, _, [] => []
  | fuel + 1, lineStart, c :: rest =>
    if lineStart then
      match tryAt (c :: rest) with
      | some (after, nl) => cleanupGo tryAt fuel nl after
      | none => c :: cleanupGo tryAt fuel (c == '\n') rest
    else c :: cleanupGo tryAt fuel (c == '\n') rest

/-- Step-3 positive cleanup `re.sub(r'(?im)^\s*(positive|prompt|提示词|正向)\s*[:：]\s*', '', pos)`. -/
def cleanupPos (s : List Char) : List Char :=
  cleanupGo tryCleanPosAt (s.length + 1) true s

/-- Step-3 negative cleanup `re.sub(r'(?im)^\s*(negative\s*prompt|…)\s*[:：]\s*', '', neg)`. -/
def cleanupNeg (s : List Char) : List Char :=
  cleanupGo tryCleanNegAt (s.length + 1) true s

/-- Steps 2 and 3 of `_split_positive_negative`, applied to the working text. -/
def splitStep23 (s : List Char) : List Char × List Char :=
  match searchNeg s with
  | some (before, after) =>
    (strip (cleanupPos (strip before)), strip (cleanupNeg (strip after)))
  | none => (strip (cleanupPos (strip s)), strip (cleanupNeg []))

/-- `OpenAIAskNode._split_positive_negative`. -/
def splitPositiveNegative (text : List Char) : List Char × List Char :=
  if text = [] then ([], [])
  else
    let s0 := strip (normalizeNewlines text)
    let s :=
      match searchPosLabel s0 with
      | some r => lstrip r
      | none => s0
    splitStep23 s

/-- The reconstruction `positive + "\n" + "Negative: " + negative` of the
spec's idempotence property. -/
def recon (p n : List Char) : List Char :=
  p ++ '\n' :: ( "Negative: ").data ++ n

def litUser : List Char := ( "user").data
def litYonghu : List Char := ( "用户").data

/-- The single possible match of
`re.sub(r'^\s*(用户|User)\s*[:：]?\s*\n?', '', t, flags=re.IGNORECASE)`:
the pattern is anchored at `^` without MULTILINE and its group is non-empty,
so at most one removal, at position 0, can ever happen.  The trailing `\n?`
never consumes anything: any newline is already eaten by the greedy `\s*`
before it.  Returns the text after the removed span. -/
def tryUserAt (s : List Char) : Option (List Char) :=
  match matchAnyLitCI [litYonghu, litUser] (lstrip s) with
  | some r =>
    match lstrip r with
    | c :: rest => if c == ':' || c == '：' then some (lstrip rest) else some (c :: rest)
    | [] => some []
  | none => none

/-- `OpenAIAskNode._sanitize_reasoning_text` on string input (the `isinstance`
guard only concerns non-string Python values, which are outside this model). -/
def sanitizeReasoningText (text : List Char) : List Char :=
  let t := normalizeNewlines text
  strip (match tryUserAt t with | some r => r | none => t)

/-- Decoded JSON value, as Python's `json.loads` produces it (`null` is Python
`None`, which is also what `dict.get` returns for a missing key). -/
inductive Py where
  | pnull : Py
  | pbool : Bool → Py
  | pnum : Int → Py
  | pstr : List Char → Py
  | plist : List Py → Py
  | pdict : List (List Char × Py) → Py

/-- Python truthiness of a decoded JSON value. -/
def pyTruthy : Py → Bool
  | .pnull => false
  | .pbool b => b
  | .pnum n => n != 0
  | .pstr s => !s.isEmpty
  | .plist l => !l.isEmpty
  | .pdict d => !d.isEmpty

/-- Dictionary lookup (keys are unique in a decoded JSON object). -/
def dictGet (d : List (List Char × Py)) (k : List Char) : Option Py :=
  match d with
  | [] => none
  | (k', v) :: rest => if k' = k then some v else dictGet rest k

/-- `blk.get(key)`: a missing key yields Python `None`. -/
def getD (d : List (List Char × Py)) (k : List Char) : Py :=
  (dictGet d k).getD Py.pnull

/-- Python `a or b` on decoded values. -/
def pyOr (a b : Py) : Py := if pyTruthy a then a else b

def keyText : List Char := ( "text").data
def keyContent : List Char := ( "content").data
def keyReasoningContent : List Char := ( "reasoning_content").data
def keyChoices : List Char := ( "choices").data
def keyMessage : List Char := ( "message").data

/-- The `isinstance(t, str) and t.strip()` gate of the extractor loop. -/
def codeGate : Py → Option (List Char)
  | .pstr s => if (strip s).isEmpty then none else some s
  | _ => none

/-- `t = blk.get("text") or blk.get("content") or ""` followed by the gate. -/
def codePick (v w : Py) : Option (List Char) :=
  codeGate (pyOr v (pyOr w (Py.pstr [])))

/-- One loop iteration of `_extract_text_from_content` over a list element:
`t = blk.get("text") or blk.get("content") or ""`, kept only when
`isinstance(t, str) and t.strip()`. -/
def blockText : Py → Option (List Char)
  | .pdict d => codePick (getD d keyText) (getD d keyContent)
  | _ => none

/-- `OpenAIAskNode._extract_text_from_content`.  `pyStr` models Python's
`str()` conversion used in the final fallback branch (external library
behaviour, abstracted). -/
def extractTextFromContent (pyStr : Py → List Char) : Py → List Char
  | .pnull => []
  | .pstr s => s
  | .plist l => strip (List.intercalate ['\n'] (l.filterMap blockText))
  | v => pyStr v

/-- Modelled from the spec: a field yields its value when that value is a
non-empty string, read literally. -/
def specField : Py → Option (List Char)
  | .pstr t => if t.isEmpty then none else some t
  | _ => none

/-- Modelled from the spec: "the first non-empty string among its `text` field
and its `content` field", read literally. -/
def specPick (v w : Py) : Option (List Char) :=
  match v with
  | .pstr s => if s.isEmpty then specField w else some s
  | _ => specField w

/-- Modelled from the spec's words for the list case of `extractText`: the
per-mapping contribution.  Used only to compare the spec's claim against the
code. -/
def specBlockFirstString : Py → Option (List Char)
  | .pdict d => specPick (getD d keyText) (getD d keyContent)
  | _ => none

/-- Modelled from the spec's words: collect the per-block strings in order,
join with newline, trim the final result. -/
def specExtractList (blocks : List Py) : List Char :=
  strip (List.intercalate ['\n'] (blocks.filterMap specBlockFirstString))

/-- Modelled from the spec's words for `selectSource` ("first non-empty wins
in the listed order"); used to state the refinement claim. -/
def specFirstNonEmpty : List (List Char) → List Char
  | [] => []
  | s :: rest => if s.isEmpty then specFirstNonEmpty rest else s

def polContentOnly : List Char := ( "content_only").data
def polReasoningOnly : List Char := ( "reasoning_only").data

/-- The source-selection block of `ask` (lines 334-339): any policy string
other than the two named ones falls into the `auto` branch. -/
def selectSource (contentSource content reasoning fallback : List Char) : List Char :=
  if contentSource = polContentOnly then
    if content.isEmpty then (if fallback.isEmpty then reasoning else fallback) else content
  else if contentSource = polReasoningOnly then
    if reasoning.isEmpty then (if fallback.isEmpty then content else fallback) else reasoning
  else
    if content.isEmpty then (if reasoning.isEmpty then fallback else reasoning) else content

/-- Decimal rendering of the HTTP status code inside the f-strings. -/
def natChars (n : Nat) : List Char := (Nat.repr n).data

/-- `f"\n\n[latency: {elapsed}]"`. -/
def latencyTag (elapsed : List Char) : List Char :=
  ( "\n\n[latency: ").data ++ elapsed ++ [']']

/-- `f"[OpenAIAsk] HTTP {resp.status_code}: {data}"` (`pyStr` abstracts
Python's `str()` of the decoded body). -/
def httpErrMsg (pyStr : Py → List Char) (status : Nat) (data : Py) : List Char :=
  ( "[OpenAIAsk] HTTP ").data ++ natChars status ++ ( ": ").data ++ pyStr data

/-- `f"[OpenAIAsk] parse error: {e}\nHTTP {resp.status_code} Body: {resp.text}"`
(`excStr` abstracts the exception's rendering). -/
def parseErrMsg (excStr : List Char) (status : Nat) (bodyText : List Char) : List Char :=
  ( "[OpenAIAsk] parse error: ").data ++ excStr ++
    ( "\nHTTP ").data ++ natChars status ++ ( " Body: ").data ++ bodyText

/-- Python subscript `choices[0]`: defined for a non-empty list (or string —
then `.get` on the resulting character fails anyway); anything else raises. -/
def pyIndex0 : Py → Except Unit Py
  | .plist (x :: _) => .ok x
  | .pstr (c :: _) => .ok (.pstr [c])
  | _ => .error ()

/-- Python `v.get(k, default)`: only mappings have `.get`; anything else
raises (caught by the enclosing `try`). -/
def pyGet (v : Py) (k : List Char) (default : Py) : Except Unit Py :=
  match v with
  | .pdict d => .ok ((dictGet d k).getD default)
  | _ => .error ()

/-- The body of the `try:` block of `ask` after a successful `resp.json()`
with status < 400 (lines 325-345): any raised exception is propagated as
`.error` to the caller, which models the `except` clause. -/
def askSuccess (pyStr : Py → List Char) (contentSource : List Char) (data : Py) :
    Except Unit (List Char × List Char × List Char) := do
  let choices ← pyGet data keyChoices (Py.plist [])
  if pyTruthy choices then
    let c0 ← pyIndex0 choices
    let msgRaw ← pyGet c0 keyMessage (Py.pdict [])
    let msg := pyOr msgRaw (Py.pdict [])
    let content ←
      match msg with
      | .pdict d => Except.ok (extractTextFromContent pyStr (getD d keyContent))
      | _ => Except.error ()
    let reasoning ←
      match msg with
      | .pdict d => Except.ok (extractTextFromContent pyStr (getD d keyReasoningContent))
      | _ => Except.error ()
    let fallbackV ← pyGet c0 keyText Py.pnull
    let fallback := extractTextFromContent pyStr fallbackV
    let outSrc := selectSource contentSource content reasoning fallback
    let pn := splitPositiveNegative outSrc
    let ans := sanitizeReasoningText outSrc
    pure (pn.1, pn.2, ans)
  else pure ([], [], [])

/-- The response-parsing section of `ask` (lines 313-356): `decoded` is
`some data` when `resp.json()` succeeds, `none` when it raises; `dumps` models
`json.dumps(data, ensure_ascii=False, indent=2)`.  Returns the four outputs
`(positive, negative, answer_text, raw_json_text)`. -/
def askParse (pyStr dumps : Py → List Char) (excStr contentSource elapsed : List Char)
    (status : Nat) (bodyText : List Char) (decoded : Option Py) :
    List Char × List Char × List Char × List Char :=
  match decoded with
  | none => ([], [], parseErrMsg excStr status bodyText, bodyText)
  | some data =>
    let raw := dumps data
    if 400 ≤ status then ([], [], httpErrMsg pyStr status data, raw)
    else
      match askSuccess pyStr contentSource data with
      | .error _ => ([], [], parseErrMsg excStr status bodyText, bodyText)
      | .ok (p, n, ans) =>
        let ans1 := if ans.isEmpty then ( "[OpenAIAsk] Empty content from server.").data else ans
        (p, n, ans1 ++ latencyTag elapsed, raw)

/-- Field values on which the code's truthiness-based extractor and the spec's
"first non-empty string" wording agree: strings that are empty or not
whitespace-only, and falsy non-strings. -/
def cleanField : Py → Bool
  | .pstr s => s.isEmpty || !(strip s).isEmpty
  | v => !pyTruthy v

/-- A block whose `text` and `content` fields are both clean. -/
def cleanBlock : Py → Bool
  | .pdict d => cleanField (getD d keyText) && cleanField (getD d keyContent)
  | _ => true

/-- Word-ness of the character just before the position after scanning `a`,
starting from state `pw` — the `\b` state the negative search carries. -/
def flagAfter (pw : Bool) : List Char → Bool
  | [] => pw
  | c :: rest => flagAfter (isWordChar c) rest

end OpenAIAsk

namespace OpenAIAsk

/-! ### Generic lemmas about the whitespace and matching primitives -/

theorem lstrip_suffix (s : List Char) : lstrip s <:+ s :=
  ⟨s.takeWhile isSpaceChar, List.takeWhile_append_dropWhile _ s⟩

theorem mem_of_mem_lstrip {a : Char} {s : List Char} (h : a ∈ lstrip s) : a ∈ s :=
  (lstrip_suffix s).subset h

theorem lstrip_length_le : ∀ s : List Char, (lstrip s).length ≤ s.length
  | [] => Nat.le_refl _
  | c :: t => by
    unfold lstrip List.dropWhile
    split
    · exact Nat.le_trans (lstrip_length_le t) (Nat.le_succ _)
    · exact Nat.le_refl _

theorem lstrip_eq_of_length : ∀ s : List Char, (lstrip s).length = s.length → lstrip s = s
  | [] => fun _ => rfl
  | c :: t => by
    unfold lstrip List.dropWhile
    split
    · intro h
      have h1 := lstrip_length_le t
      unfold lstrip at h1
      simp only [List.length_cons] at h
      omega
    · intro _
      rfl

theorem rstrip_length_le (s : List Char) : (rstrip s).length ≤ s.length := by
  unfold rstrip
  simpa using lstrip_length_le s.reverse

theorem lstrip_cons_of_space {c : Char} {t : List Char} (h : isSpaceChar c = true) :
    lstrip (c :: t) = lstrip t := by
  unfold lstrip
  exact List.dropWhile_cons_of_pos h

theorem lstrip_cons_of_nonspace {c : Char} {t : List Char} (h : isSpaceChar c = false) :
    lstrip (c :: t) = c :: t := by
  unfold lstrip
  exact List.dropWhile_cons_of_neg (by simp [h])

theorem lstrip_eq_self_of_strip {s : List Char} (h : strip s = s) : lstrip s = s := by
  have h1 : (strip s).length ≤ (lstrip s).length := rstrip_length_le (lstrip s)
  have h2 : (lstrip s).length ≤ s.length := lstrip_length_le s
  rw [h] at h1
  exact lstrip_eq_of_length s (Nat.le_antisymm h2 h1)

theorem rstrip_eq_self_of_strip {s : List Char} (h : strip s = s) : rstrip s = s := by
  have := lstrip_eq_self_of_strip h
  calc rstrip s = rstrip (lstrip s) := by rw [this]
    _ = s := h

theorem head_nonspace_of_lstrip {c : Char} {t : List Char} (h : lstrip (c :: t) = c :: t) :
    isSpaceChar c = false := by
  by_contra hc
  rw [Bool.not_eq_false] at hc
  rw [lstrip_cons_of_space hc] at h
  have h1 := lstrip_length_le t
  have h2 := congrArg List.length h
  simp only [List.length_cons] at h2
  omega

theorem matchLitCI_suffix : ∀ (lit s r : List Char), matchLitCI lit s = some r → r <:+ s
  | [], s, r, h => by
    unfold matchLitCI at h
    cases h
    exact List.suffix_refl s
  | _ :: _, [], r, h => by
    unfold matchLitCI at h
    cases h
  | a :: as, c :: cs, r, h => by
    unfold matchLitCI at h
    split at h
    · exact (matchLitCI_suffix as cs r h).trans (List.suffix_cons c cs)
    · cases h

theorem matchAnyLitCI_suffix : ∀ (lits : List (List Char)) (s r : List Char),
    matchAnyLitCI lits s = some r → r <:+ s
  | [], s, r, h => by
    unfold matchAnyLitCI at h
    cases h
  | lit :: rest, s, r, h => by
    unfold matchAnyLitCI at h
    split at h
    · cases h
      exact matchLitCI_suffix lit s _ (by assumption)
    · exact matchAnyLitCI_suffix rest s r h

theorem afterLabel_suffix {s r : List Char} (h : afterLabel s = some r) : r <:+ s := by
  unfold afterLabel at h
  split at h
  next c rest heq =>
    split at h
    · cases h
      calc lstrip rest <:+ rest := lstrip_suffix rest
        _ <:+ c :: rest := List.suffix_cons c rest
        _ = lstrip s := heq.symm
        _ <:+ s := lstrip_suffix s
    · cases h
  next => cases h

theorem afterLabel_colon {s r : List Char} (h : afterLabel s = some r) :
    ':' ∈ s ∨ '：' ∈ s := by
  unfold afterLabel at h
  split at h
  next c rest heq =>
    split at h
    next hc =>
      have hmem : c ∈ s := mem_of_mem_lstrip (heq ▸ List.mem_cons_self c rest)
      rcases Bool.or_eq_true_iff.mp hc with h1 | h1
      · exact Or.inl (by rwa [eq_of_beq h1] at hmem)
      · exact Or.inr (by rwa [eq_of_beq h1] at hmem)
    · cases h
  next => cases h

theorem lstripInfo_fst (s : List Char) : (lstripInfo s).1 = lstrip s := by
  induction s with
  | nil => rfl
  | cons c t ih =>
    unfold lstripInfo
    split
    next hc =>
      rw [lstrip_cons_of_space hc, ← ih]
      split
      next heq => rw [heq]
      next heq => rw [heq]
    next hc =>
      rw [lstrip_cons_of_nonspace (Bool.not_eq_true _ ▸ (by simpa using hc))]

theorem lstripInfo_mem : ∀ (s : List Char) (r : List Char) (d : Char),
    lstripInfo s = (r, some d) → d ∈ s
  | [], r, d, h => by
    unfold lstripInfo at h
    cases h
  | c :: t, r, d, h => by
    unfold lstripInfo at h
    split at h
    next hc =>
      split at h
      next heq =>
        cases h
        exact List.mem_cons_of_mem c (lstripInfo_mem t _ _ (by rw [heq]))
      next heq =>
        cases h
        exact List.mem_cons_self c t
    next hc =>
      cases h

theorem afterLabelInfo_colon {s : List Char} {r : List Char} {b : Bool}
    (h : afterLabelInfo s = some (r, b)) : ':' ∈ s ∨ '：' ∈ s := by
  unfold afterLabelInfo at h
  split at h
  next c rest heq =>
    split at h
    next hc =>
      have hmem : c ∈ s := mem_of_mem_lstrip (heq ▸ List.mem_cons_self c rest)
      rcases Bool.or_eq_true_iff.mp hc with h1 | h1
      · exact Or.inl (by rwa [eq_of_beq h1] at hmem)
      · exact Or.inr (by rwa [eq_of_beq h1] at hmem)
    · cases h
  next => cases h

theorem afterLabelInfo_suffix {s : List Char} {r : List Char} {b : Bool}
    (h : afterLabelInfo s = some (r, b)) : r <:+ s := by
  unfold afterLabelInfo at h
  split at h
  next c rest heq =>
    split at h
    next =>
      split at h
      next r' d hinfo =>
        cases h
        have : r = lstrip rest := by
          have := lstripInfo_fst rest
          rw [hinfo] at this
          exact this
        rw [this]
        calc lstrip rest <:+ rest := lstrip_suffix rest
          _ <:+ c :: rest := List.suffix_cons c rest
          _ = lstrip s := heq.symm
          _ <:+ s := lstrip_suffix s
    · cases h
  next => cases h

theorem afterLabelInfo_newline {s : List Char} {r : List Char}
    (h : afterLabelInfo s = some (r, true)) : '\n' ∈ s := by
  unfold afterLabelInfo at h
  split at h
  next c rest heq =>
    split at h
    next =>
      split at h
      next r' d hinfo =>
        rw [Option.some.injEq, Prod.mk.injEq] at h
        obtain ⟨h1, h2⟩ := h
        have hd : d = some '\n' := eq_of_beq h2
        rw [hd] at hinfo
        have hmem : '\n' ∈ rest := lstripInfo_mem rest r' '\n' hinfo
        have hmem2 : '\n' ∈ lstrip s := heq ▸ List.mem_cons_of_mem c hmem
        exact mem_of_mem_lstrip hmem2
    · cases h
  next => cases h

theorem mem_of_mem_rstrip {a : Char} {s : List Char} (h : a ∈ rstrip s) : a ∈ s := by
  unfold rstrip at h
  rw [List.mem_reverse] at h
  have h2 : a ∈ s.reverse := (lstrip_suffix s.reverse).subset h
  exact List.mem_reverse.mp h2

theorem mem_of_mem_strip {a : Char} {s : List Char} (h : a ∈ strip s) : a ∈ s :=
  mem_of_mem_lstrip (mem_of_mem_rstrip h)

theorem mem_of_mem_normalize : ∀ (s : List Char) (a : Char), a ∈ normalizeNewlines s → a ∈ s
  | [], _, h => h
  | [_], _, h => h
  | c :: d :: rest, a, h => by
    unfold normalizeNewlines at h
    split at h
    next hcd =>
      rcases List.mem_cons.mp h with rfl | h'
      · exact List.mem_cons_of_mem _ (hcd.2 ▸ List.mem_cons_self d rest)
      · exact List.mem_cons_of_mem _ (List.mem_cons_of_mem _ (mem_of_mem_normalize rest a h'))
    next =>
      rcases List.mem_cons.mp h with rfl | h'
      · exact List.mem_cons_self _ _
      · exact List.mem_cons_of_mem _ (mem_of_mem_normalize (d :: rest) a h')

/-! ### Suffix and colon facts about the label alternatives -/

theorem negAltNegPrompt_suffix {s r : List Char} (h : negAltNegPrompt s = some r) : r <:+ s := by
  unfold negAltNegPrompt at h
  split at h
  next r1 heq =>
    exact ((matchLitCI_suffix _ _ _ h).trans (lstrip_suffix r1)).trans
      (matchLitCI_suffix _ _ _ heq)
  next => cases h

theorem negAltDoNot_suffix {s r : List Char} (h : negAltDoNot s = some r) : r <:+ s := by
  unfold negAltDoNot at h
  split at h
  next r1 heq =>
    exact ((matchLitCI_suffix _ _ _ h).trans (lstrip_suffix r1)).trans
      (matchLitCI_suffix _ _ _ heq)
  next => cases h

theorem negAlts_suffix : ∀ f ∈ negAlts, ∀ s r, f s = some r → r <:+ s := by
  intro f hf
  fin_cases hf
  · exact fun s r h => negAltNegPrompt_suffix h
  · exact fun s r h => matchLitCI_suffix _ s r h
  · exact fun s r h => matchLitCI_suffix _ s r h
  · exact fun s r h => matchLitCI_suffix _ s r h
  · exact fun s r h => matchLitCI_suffix _ s r h
  · exact fun s r h => negAltDoNot_suffix h
  · exact fun s r h => matchLitCI_suffix _ s r h
  · exact fun s r h => matchLitCI_suffix _ s r h
  · exact fun s r h => matchLitCI_suffix _ s r h
  · exact fun s r h => matchLitCI_suffix _ s r h

theorem posAltsStepOne_suffix : ∀ f ∈ posAltsStepOne, ∀ s r, f s = some r → r <:+ s := by
  intro f hf
  fin_cases hf <;> exact fun s r h => matchLitCI_suffix _ s r h

theorem posAltsCleanup_suffix : ∀ f ∈ posAltsCleanup, ∀ s r, f s = some r → r <:+ s := by
  intro f hf
  fin_cases hf <;> exact fun s r h => matchLitCI_suffix _ s r h

theorem firstColon_colon :
    ∀ (fs : List (List Char → Option (List Char))),
      (∀ f ∈ fs, ∀ s r, f s = some r → r <:+ s) →
      ∀ s r, firstColon fs s = some r → (':' ∈ s ∨ '：' ∈ s)
  | [], _, s, r, h => by
    unfold firstColon at h
    cases h
  | f :: fs, hsuf, s, r, h => by
    unfold firstColon at h
    split at h
    next r' heq =>
      rcases Option.bind_eq_some.mp heq with ⟨mid, hmid, haft⟩
      have hsub : mid ⊆ s := (hsuf f (List.mem_cons_self f fs) s mid hmid).subset
      rcases afterLabel_colon haft with h1 | h1
      · exact Or.inl (hsub h1)
      · exact Or.inr (hsub h1)
    next =>
      exact firstColon_colon fs (fun g hg => hsuf g (List.mem_cons_of_mem f hg)) s r h

theorem firstColon_suffix :
    ∀ (fs : List (List Char → Option (List Char))),
      (∀ f ∈ fs, ∀ s r, f s = some r → r <:+ s) →
      ∀ s r, firstColon fs s = some r → r <:+ s
  | [], _, s, r, h => by
    unfold firstColon at h
    cases h
  | f :: fs, hsuf, s, r, h => by
    unfold firstColon at h
    split at h
    next r' heq =>
      cases h
      rcases Option.bind_eq_some.mp heq with ⟨mid, hmid, haft⟩
      exact (afterLabel_suffix haft).trans (hsuf f (List.mem_cons_self f fs) s mid hmid)
    next =>
      exact firstColon_suffix fs (fun g hg => hsuf g (List.mem_cons_of_mem f hg)) s r h

theorem firstColonInfo_colon :
    ∀ (fs : List (List Char → Option (List Char))),
      (∀ f ∈ fs, ∀ s r, f s = some r → r <:+ s) →
      ∀ s r b, firstColonInfo fs s = some (r, b) → (':' ∈ s ∨ '：' ∈ s)
  | [], _, s, r, b, h => by
    unfold firstColonInfo at h
    cases h
  | f :: fs, hsuf, s, r, b, h => by
    unfold firstColonInfo at h
    split at h
    next r' heq =>
      cases h
      rcases Option.bind_eq_some.mp heq with ⟨mid, hmid, haft⟩
      have hsub : mid ⊆ s := (hsuf f (List.mem_cons_self f fs) s mid hmid).subset
      rcases afterLabelInfo_colon haft with h1 | h1
      · exact Or.inl (hsub h1)
      · exact Or.inr (hsub h1)
    next =>
      exact firstColonInfo_colon fs (fun g hg => hsuf g (List.mem_cons_of_mem f hg)) s r b h

theorem firstColonInfo_suffix :
    ∀ (fs : List (List Char → Option (List Char))),
      (∀ f ∈ fs, ∀ s r, f s = some r → r <:+ s) →
      ∀ s r b, firstColonInfo fs s = some (r, b) → r <:+ s
  | [], _, s, r, b, h => by
    unfold firstColonInfo at h
    cases h
  | f :: fs, hsuf, s, r, b, h => by
    unfold firstColonInfo at h
    split at h
    next r' heq =>
      cases h
      rcases Option.bind_eq_some.mp heq with ⟨mid, hmid, haft⟩
      exact (afterLabelInfo_suffix haft).trans (hsuf f (List.mem_cons_self f fs) s mid hmid)
    next =>
      exact firstColonInfo_suffix fs (fun g hg => hsuf g (List.mem_cons_of_mem f hg)) s r b h

theorem firstColonInfo_newline :
    ∀ (fs : List (List Char → Option (List Char))),
      (∀ f ∈ fs, ∀ s r, f s = some r → r <:+ s) →
      ∀ s r, firstColonInfo fs s = some (r, true) → '\n' ∈ s
  | [], _, s, r, h => by
    unfold firstColonInfo at h
    cases h
  | f :: fs, hsuf, s, r, h => by
    unfold firstColonInfo at h
    split at h
    next r' heq =>
      cases h
      rcases Option.bind_eq_some.mp heq with ⟨mid, hmid, haft⟩
      have hsub : mid ⊆ s := (hsuf f (List.mem_cons_self f fs) s mid hmid).subset
      exact hsub (afterLabelInfo_newline haft)
    next =>
      exact firstColonInfo_newline fs (fun g hg => hsuf g (List.mem_cons_of_mem f hg)) s r h

/-! ### A text without any colon is never cut, split or cleaned -/

theorem tryPosLabelCore_colon {s r : List Char} (h : tryPosLabelCore s = some r) :
    ':' ∈ s ∨ '：' ∈ s := by
  unfold tryPosLabelCore at h
  rcases firstColon_colon posAltsStepOne posAltsStepOne_suffix _ _ h with h1 | h1
  · exact Or.inl (mem_of_mem_lstrip h1)
  · exact Or.inr (mem_of_mem_lstrip h1)

theorem searchPosAfterNL_colon : ∀ (s : List Char) (r : List Char),
    searchPosAfterNL s = some r → (':' ∈ s ∨ '：' ∈ s)
  | [], r, h => by
    unfold searchPosAfterNL at h
    cases h
  | c :: rest, r, h => by
    unfold searchPosAfterNL at h
    split at h
    · split at h
      next heq =>
        rcases tryPosLabelCore_colon heq with h1 | h1
        · exact Or.inl (List.mem_cons_of_mem c h1)
        · exact Or.inr (List.mem_cons_of_mem c h1)
      next =>
        rcases searchPosAfterNL_colon rest r h with h1 | h1
        · exact Or.inl (List.mem_cons_of_mem c h1)
        · exact Or.inr (List.mem_cons_of_mem c h1)
    · rcases searchPosAfterNL_colon rest r h with h1 | h1
      · exact Or.inl (List.mem_cons_of_mem c h1)
      · exact Or.inr (List.mem_cons_of_mem c h1)

theorem searchPosLabel_colon {s r : List Char} (h : searchPosLabel s = some r) :
    ':' ∈ s ∨ '：' ∈ s := by
  unfold searchPosLabel at h
  split at h
  next heq =>
    cases h
    exact tryPosLabelCore_colon heq
  next => exact searchPosAfterNL_colon s r h

theorem searchPosLabel_none_of_noColon {s : List Char} (h1 : ':' ∉ s) (h2 : '：' ∉ s) :
    searchPosLabel s = none := by
  cases heq : searchPosLabel s with
  | none => rfl
  | some r =>
    rcases searchPosLabel_colon heq with h | h
    · exact absurd h h1
    · exact absurd h h2

theorem tryNegLabelAt_colon {s r : List Char} (h : tryNegLabelAt s = some r) :
    ':' ∈ s ∨ '：' ∈ s :=
  firstColon_colon negAlts negAlts_suffix s r h

theorem searchNegAux_none_of_noColon : ∀ (s : List Char) (pw : Bool) (pre : List Char),
    ':' ∉ s → '：' ∉ s → searchNegAux pw pre s = none
  | [], _, _, _, _ => rfl
  | c :: rest, pw, pre, h1, h2 => by
    unfold searchNegAux
    have htry : tryNegAt pw (c :: rest) = none := by
      unfold tryNegAt
      split
      · rfl
      · cases heq : tryNegLabelAt (c :: rest) with
        | none => rfl
        | some r =>
          rcases tryNegLabelAt_colon heq with h | h
          · exact absurd h h1
          · exact absurd h h2
    rw [htry]
    exact searchNegAux_none_of_noColon rest (isWordChar c) (c :: pre)
      (fun h => h1 (List.mem_cons_of_mem c h)) (fun h => h2 (List.mem_cons_of_mem c h))

theorem tryCleanPosAt_colon {s : List Char} {r : List Char} {b : Bool}
    (h : tryCleanPosAt s = some (r, b)) : ':' ∈ s ∨ '：' ∈ s := by
  unfold tryCleanPosAt at h
  rcases firstColonInfo_colon posAltsCleanup posAltsCleanup_suffix _ _ _ h with h1 | h1
  · exact Or.inl (mem_of_mem_lstrip h1)
  · exact Or.inr (mem_of_mem_lstrip h1)

theorem tryCleanNegAt_colon {s : List Char} {r : List Char} {b : Bool}
    (h : tryCleanNegAt s = some (r, b)) : ':' ∈ s ∨ '：' ∈ s := by
  unfold tryCleanNegAt at h
  rcases firstColonInfo_colon negAlts negAlts_suffix _ _ _ h with h1 | h1
  · exact Or.inl (mem_of_mem_lstrip h1)
  · exact Or.inr (mem_of_mem_lstrip h1)

theorem cleanupGo_eq_self (tryAt : List Char → Option (List Char × Bool))
    (htry : ∀ s r b, tryAt s = some (r, b) → (':' ∈ s ∨ '：' ∈ s)) :
    ∀ (s : List Char) (fuel : Nat) (ls : Bool),
      ':' ∉ s → '：' ∉ s → cleanupGo tryAt fuel ls s = s
  | _, 0, _, _, _ => rfl
  | [], _ + 1, _, _, _ => rfl
  | c :: rest, fuel + 1, ls, h1, h2 => by
    unfold cleanupGo
    have ih := cleanupGo_eq_self tryAt htry rest fuel (c == '\n')
      (fun h => h1 (List.mem_cons_of_mem c h)) (fun h => h2 (List.mem_cons_of_mem c h))
    cases ls with
    | false => simpa using ih
    | true =>
      simp only [if_true]
      cases heq : tryAt (c :: rest) with
      | none => simpa using ih
      | some rb =>
        rcases htry (c :: rest) rb.1 rb.2 (by rw [heq]) with h | h
        · exact absurd h h1
        · exact absurd h h2

theorem lstrip_idem (s : List Char) : lstrip (lstrip s) = lstrip s := by
  induction s with
  | nil => rfl
  | cons c t ih =>
    by_cases hc : isSpaceChar c = true
    · rw [lstrip_cons_of_space hc]
      exact ih
    · rw [Bool.not_eq_true] at hc
      rw [lstrip_cons_of_nonspace hc, lstrip_cons_of_nonspace hc]

theorem head_nonspace_of_lstrip_eq {s : List Char} {c : Char} {t : List Char}
    (h : lstrip s = c :: t) : isSpaceChar c = false := by
  have hfix := lstrip_idem s
  rw [h] at hfix
  exact head_nonspace_of_lstrip hfix

theorem rstrip_prefix (u : List Char) : rstrip u <+: u :=
  ⟨(u.reverse.takeWhile isSpaceChar).reverse, by
    unfold rstrip
    rw [← List.reverse_append, List.takeWhile_append_dropWhile, List.reverse_reverse]⟩

theorem rstrip_idem (u : List Char) : rstrip (rstrip u) = rstrip u := by
  have h : rstrip (rstrip u) = (lstrip (lstrip u.reverse)).reverse := by
    unfold rstrip lstrip
    rw [List.reverse_reverse]
  rw [h, lstrip_idem]
  rfl

theorem strip_idem (s : List Char) : strip (strip s) = strip s := by
  unfold strip
  have h1 : lstrip (rstrip (lstrip s)) = rstrip (lstrip s) := by
    cases heqd : rstrip (lstrip s) with
    | nil => rfl
    | cons d t' =>
      rcases rstrip_prefix (lstrip s) with ⟨k, hk⟩
      rw [heqd] at hk
      have hfix := lstrip_idem s
      rw [← hk] at hfix
      have hd : isSpaceChar d = false := head_nonspace_of_lstrip (by simpa using hfix)
      exact lstrip_cons_of_nonspace hd
  rw [h1]
  exact rstrip_idem (lstrip s)

/-- If step 1 finds no positive-label marker, the splitter works on the whole
trimmed, newline-normalized text. -/
theorem split_eq_of_no_posLabel {text : List Char} (ht : text ≠ [])
    (h : searchPosLabel (strip (normalizeNewlines text)) = none) :
    splitPositiveNegative text = splitStep23 (strip (normalizeNewlines text)) := by
  unfold splitPositiveNegative
  rw [if_neg ht]
  simp only [h]

/-- If step 1 finds a positive-label marker, the splitter works on the
left-stripped remainder after the match. -/
theorem split_eq_of_posLabel {text r : List Char} (ht : text ≠ [])
    (h : searchPosLabel (strip (normalizeNewlines text)) = some r) :
    splitPositiveNegative text = splitStep23 (lstrip r) := by
  unfold splitPositiveNegative
  rw [if_neg ht]
  simp only [h]

/-! ### Claim theorems -/

/-- C1: the spec's example splits hold, and a text with no positive-label
marker is still split over the whole (trimmed, normalized) text by steps 2-3,
so a negative label before any positive label is honored. -/
theorem c1_split_behaviour :
    splitPositiveNegative (( "Prompt: a cat\nNegative: a dog").data) =
      (( "a cat").data, ( "a dog").data) ∧
    splitPositiveNegative (( "random preamble\nPositive: sunset\nAvoid: blur").data) =
      (( "sunset").data, ( "blur").data) ∧
    splitPositiveNegative (( "just a plain sentence").data) =
      (( "just a plain sentence").data, []) ∧
    splitPositiveNegative [] = ([], []) ∧
    (∀ text, text ≠ [] → searchPosLabel (strip (normalizeNewlines text)) = none →
      splitPositiveNegative text = splitStep23 (strip (normalizeNewlines text))) :=
  ⟨by decide, by decide, by decide, by decide, fun _ ht h => split_eq_of_no_posLabel ht h⟩

/-- C1 witness: the general clause applied to a text whose negative label
precedes any positive label ("Avoid: blur" has no positive label at all). -/
theorem c1_witness :
    splitPositiveNegative (( "Avoid: blur").data) = ([], ( "blur").data) := by
  have h := c1_split_behaviour.2.2.2.2 (( "Avoid: blur").data) (by decide) (by decide)
  rw [h]
  decide

/-- C2 counterexample: the colon is mandatory, not optional.  With a positive
label after a newline but no colon the preamble is kept, and with a negative
label but no colon the text is not split. -/
theorem c2_counterexample :
    splitPositiveNegative (( "x\nPrompt sunset").data) =
      (( "x\nPrompt sunset").data, []) ∧
    splitPositiveNegative (( "a Avoid blur").data) = (( "a Avoid blur").data, []) :=
  ⟨by decide, by decide⟩

/-- C2 amended: every label pattern of the splitter requires a colon, so a
text containing no colon at all is returned whole (trimmed and normalized) as
the positive part, with an empty negative part. -/
theorem c2_amended (text : List Char) (h1 : ':' ∉ text) (h2 : '：' ∉ text) :
    splitPositiveNegative text = (strip (normalizeNewlines text), []) := by
  by_cases ht : text = []
  · subst ht
    rfl
  · have hmem : ∀ a : Char, a ∈ strip (normalizeNewlines text) → a ∈ text := fun a ha =>
      mem_of_mem_normalize text a (mem_of_mem_strip ha)
    have h1' : ':' ∉ strip (normalizeNewlines text) := fun h => h1 (hmem _ h)
    have h2' : '：' ∉ strip (normalizeNewlines text) := fun h => h2 (hmem _ h)
    rw [split_eq_of_no_posLabel ht (searchPosLabel_none_of_noColon h1' h2')]
    unfold splitStep23
    have hneg : searchNeg (strip (normalizeNewlines text)) = none :=
      searchNegAux_none_of_noColon _ false [] h1' h2'
    rw [hneg]
    have hss : strip (strip (normalizeNewlines text)) = strip (normalizeNewlines text) :=
      strip_idem (normalizeNewlines text)
    have hclean : cleanupPos (strip (normalizeNewlines text)) = strip (normalizeNewlines text) :=
      cleanupGo_eq_self tryCleanPosAt (fun _ _ _ h => tryCleanPosAt_colon h) _ _ true h1' h2'
    rw [hss, hclean, hss]
    rfl

/-- C2 witness: the amended no-colon theorem at a concrete input. -/
theorem c2_witness :
    (':' ∉ ( "a Avoid blur").data ∧ '：' ∉ ( "a Avoid blur").data) ∧
    splitPositiveNegative (( "a Avoid blur").data) =
      (strip (normalizeNewlines (( "a Avoid blur").data)), []) :=
  ⟨⟨by decide, by decide⟩, c2_amended _ (by decide) (by decide)⟩

/-- C6: `selectSource` returns the first non-empty candidate in the policy's
order (content_only: content, fallback, reasoning; reasoning_only: reasoning,
fallback, content; auto: content, reasoning, fallback), returns `""` when all
three are empty under any policy string, and in particular returns the
fallback `"F"` for content_only with empty content. -/
theorem c6_select_source (c r f : List Char) :
    selectSource polContentOnly c r f = specFirstNonEmpty [c, f, r] ∧
    selectSource polReasoningOnly c r f = specFirstNonEmpty [r, f, c] ∧
    selectSource (( "auto").data) c r f = specFirstNonEmpty [c, r, f] ∧
    (∀ pol, selectSource pol [] [] [] = []) ∧
    selectSource polContentOnly [] (( "R").data) (( "F").data) = ( "F").data := by
  refine ⟨?_, ?_, ?_, ?_, by decide⟩
  · unfold selectSource specFirstNonEmpty
    rw [if_pos rfl]
    by_cases hc : c.isEmpty <;> by_cases hf : f.isEmpty <;> by_cases hr : r.isEmpty <;>
      simp_all [specFirstNonEmpty, List.isEmpty_iff]
  · unfold selectSource specFirstNonEmpty
    rw [if_neg (by decide), if_pos rfl]
    by_cases hc : c.isEmpty <;> by_cases hf : f.isEmpty <;> by_cases hr : r.isEmpty <;>
      simp_all [specFirstNonEmpty, List.isEmpty_iff]
  · unfold selectSource specFirstNonEmpty
    rw [if_neg (by decide), if_neg (by decide)]
    by_cases hc : c.isEmpty <;> by_cases hf : f.isEmpty <;> by_cases hr : r.isEmpty <;>
      simp_all [specFirstNonEmpty, List.isEmpty_iff]
  · intro pol
    unfold selectSource
    split_ifs <;> rfl

/-- C9: on the assembler's failure paths all four outputs are produced: an
undecodable body yields empty positive/negative, a parse-error message
carrying the status code and the raw body, and the raw body verbatim as
`raw_json`; a decodable body with status ≥ 400 yields empty positive/negative,
an HTTP-error message carrying the status code and the decoded body, and the
pretty-printed body as `raw_json`. -/
theorem c9_error_paths (pyStr dumps : Py → List Char) (excStr cs el body : List Char)
    (status : Nat) (data : Py) :
    (askParse pyStr dumps excStr cs el status body none =
        ([], [], parseErrMsg excStr status body, body) ∧
      natChars status <:+: parseErrMsg excStr status body ∧
      body <:+: parseErrMsg excStr status body) ∧
    (400 ≤ status →
      (askParse pyStr dumps excStr cs el status body (some data) =
          ([], [], httpErrMsg pyStr status data, dumps data) ∧
        natChars status <:+: httpErrMsg pyStr status data ∧
        pyStr data <:+: httpErrMsg pyStr status data)) := by
  constructor
  · refine ⟨rfl, ?_, ?_⟩
    · exact ⟨( "[OpenAIAsk] parse error: ").data ++ excStr ++ ( "\nHTTP ").data,
        ( " Body: ").data ++ body, by simp [parseErrMsg, List.append_assoc]⟩
    · exact ⟨( "[OpenAIAsk] parse error: ").data ++ excStr ++ ( "\nHTTP ").data ++
        natChars status ++ ( " Body: ").data, [], by simp [parseErrMsg, List.append_assoc]⟩
  · intro h
    refine ⟨?_, ?_, ?_⟩
    · simp only [askParse]
      rw [if_pos h]
    · exact ⟨( "[OpenAIAsk] HTTP ").data, ( ": ").data ++ pyStr data,
        by simp [httpErrMsg, List.append_assoc]⟩
    · exact ⟨( "[OpenAIAsk] HTTP ").data ++ natChars status ++ ( ": ").data, [],
        by simp [httpErrMsg, List.append_assoc]⟩

/-- C9 witness: the HTTP-error clause at status 500 with concrete printers. -/
theorem c9_witness :
    askParse (fun _ => ( "D").data) (fun _ => ( "J").data) (( "E").data) [] []
        500 (( "BD").data) (some Py.pnull) =
      ([], [], httpErrMsg (fun _ => ( "D").data) 500 Py.pnull, ( "J").data) :=
  ((c9_error_paths (fun _ => ( "D").data) (fun _ => ( "J").data) (( "E").data) [] []
    (( "BD").data) 500 Py.pnull).2 (by decide)).1

/-- C10: the word-boundary test applies to the CJK negative labels too: a
localized negative label directly preceded by a word character (CJK characters
are word characters) is not a boundary, while the same label at the start of
the text or after a non-word character is. -/
theorem c10_cjk_word_boundary :
    (∀ s, tryNegAt true s = none) ∧
    isWordChar '请' = true ∧ isWordChar '避' = true ∧ isWordChar '免' = true ∧
    splitPositiveNegative (( "请避免: blur").data) = (( "请避免: blur").data, []) ∧
    splitPositiveNegative (( "请 避免: blur").data) = (( "请").data, ( "blur").data) ∧
    splitPositiveNegative (( "避免: blur").data) = ([], ( "blur").data) :=
  ⟨fun _ => rfl, by decide, by decide, by decide, by decide, by decide, by decide⟩

/-! ### The step-3 cleanups on single-line segments (claim C3) -/

theorem matchLitCI_head_false {a c : Char} {as cs : List Char} (h : eqCI c a = false) :
    matchLitCI (a :: as) (c :: cs) = none := by
  unfold matchLitCI
  simp [h]

theorem tryCleanPosAt_suffix {s r : List Char} {b : Bool}
    (h : tryCleanPosAt s = some (r, b)) : r <:+ s :=
  (firstColonInfo_suffix posAltsCleanup posAltsCleanup_suffix _ _ _ h).trans (lstrip_suffix s)

theorem tryCleanNegAt_suffix {s r : List Char} {b : Bool}
    (h : tryCleanNegAt s = some (r, b)) : r <:+ s :=
  (firstColonInfo_suffix negAlts negAlts_suffix _ _ _ h).trans (lstrip_suffix s)

theorem tryCleanPosAt_newline {s r : List Char} (h : tryCleanPosAt s = some (r, true)) :
    '\n' ∈ s :=
  mem_of_mem_lstrip (firstColonInfo_newline posAltsCleanup posAltsCleanup_suffix _ _ h)

theorem tryCleanNegAt_newline {s r : List Char} (h : tryCleanNegAt s = some (r, true)) :
    '\n' ∈ s :=
  mem_of_mem_lstrip (firstColonInfo_newline negAlts negAlts_suffix _ _ h)

/-- Off a line start the cleanup loop only copies characters. -/
theorem cleanupGo_copy (tryAt : List Char → Option (List Char × Bool)) :
    ∀ (s : List Char) (fuel : Nat), '\n' ∉ s → cleanupGo tryAt fuel false s = s
  | _, 0, _ => rfl
  | [], _ + 1, _ => rfl
  | c :: rest, fuel + 1, h => by
    unfold cleanupGo
    rw [if_neg (by simp)]
    have hc : (c == '\n') = false := by
      simp only [beq_eq_false_iff_ne, ne_eq]
      intro hcc
      exact h (hcc ▸ List.mem_cons_self c rest)
    rw [hc]
    rw [cleanupGo_copy tryAt rest fuel (fun hm => h (List.mem_cons_of_mem c hm))]

/-- On a newline-free segment the cleanup performs at most the one leading
removal: generic in the line-start matcher. -/
theorem cleanupGo_single_line (tryAt : List Char → Option (List Char × Bool))
    (hsuf : ∀ s r b, tryAt s = some (r, b) → r <:+ s)
    (hnl : ∀ s r, tryAt s = some (r, true) → '\n' ∈ s)
    (s : List Char) (h : '\n' ∉ s) :
    (∀ r b, tryAt s = some (r, b) → cleanupGo tryAt (s.length + 1) true s = r) ∧
    (tryAt s = none → cleanupGo tryAt (s.length + 1) true s = s) := by
  cases s with
  | nil =>
    constructor
    · intro r b htry
      have := List.suffix_nil.mp (hsuf [] r b htry)
      subst this
      rfl
    · intro _
      rfl
  | cons c rest =>
    constructor
    · intro r b htry
      unfold cleanupGo
      rw [if_pos rfl, htry]
      cases b with
      | true => exact absurd (hnl _ _ htry) h
      | false =>
        have hr : '\n' ∉ r := fun hm => h ((hsuf _ r false htry).subset hm)
        exact cleanupGo_copy tryAt r _ hr
    · intro htry
      unfold cleanupGo
      rw [if_pos rfl, htry]
      have hc : (c == '\n') = false := by
        simp only [beq_eq_false_iff_ne, ne_eq]
        intro hcc
        exact h (hcc ▸ List.mem_cons_self c rest)
      rw [hc, cleanupGo_copy tryAt rest _ (fun hm => h (List.mem_cons_of_mem c hm))]

/-- C3 counterexample: a positive-label token at the start of a *later* line
is removed by the (?m)-anchored cleanup, not preserved: the positive output is
"cat\ndog", not "cat\nPositive: dog". -/
theorem c3_counterexample :
    splitPositiveNegative (( "Prompt: cat\nPositive: dog").data) =
      (( "cat\ndog").data, []) ∧
    ( "cat\ndog").data ≠ ( "cat\nPositive: dog").data :=
  ⟨by decide, by decide⟩

/-- C3 amended: the residual cleanup strips one label-with-colon occurrence at
*every* line start (the colon being required); on a newline-free segment this
means exactly one removal, at the start of the segment, when the leading
pattern matches, and no change otherwise — for both the positive and the
negative cleanup. -/
theorem c3_single_line_cleanup (s : List Char) (h : '\n' ∉ s) :
    (∀ r b, tryCleanPosAt s = some (r, b) → cleanupPos s = r) ∧
    (tryCleanPosAt s = none → cleanupPos s = s) ∧
    (∀ r b, tryCleanNegAt s = some (r, b) → cleanupNeg s = r) ∧
    (tryCleanNegAt s = none → cleanupNeg s = s) := by
  have hp := cleanupGo_single_line tryCleanPosAt
    (fun _ _ _ hh => tryCleanPosAt_suffix hh) (fun _ _ hh => tryCleanPosAt_newline hh) s h
  have hn := cleanupGo_single_line tryCleanNegAt
    (fun _ _ _ hh => tryCleanNegAt_suffix hh) (fun _ _ hh => tryCleanNegAt_newline hh) s h
  exact ⟨hp.1, hp.2, hn.1, hn.2⟩

/-- C3 witness: the amended cleanup behaviour at a concrete single-line
segment: exactly the leading "Positive: " is stripped. -/
theorem c3_witness : cleanupPos (( "Positive: x").data) = ( "x").data :=
  (c3_single_line_cleanup (( "Positive: x").data) (by decide)).1 (( "x").data) false (by decide)

/-! ### The sanitizer (claim C8) -/

theorem tryUserAt_suffix {s r : List Char} (h : tryUserAt s = some r) : r <:+ s := by
  unfold tryUserAt at h
  split at h
  next mid heq =>
    have hmid : mid <:+ s := (matchAnyLitCI_suffix _ _ _ heq).trans (lstrip_suffix s)
    split at h
    next c rest heq2 =>
      have hcr : (c :: rest) <:+ s := (heq2 ▸ lstrip_suffix mid).trans hmid
      split at h
      · cases h
        exact ((lstrip_suffix rest).trans (List.suffix_cons c rest)).trans hcr
      · cases h
        exact hcr
    next heq2 =>
      cases h
      exact List.nil_suffix
  next => cases h

/-- C8: the sanitizer removes at most one leading User/用户 token (optional
colon), only as a prefix: the example evaluates as claimed; when the leading
pattern does not match the text is only trimmed; when it matches, the result
is the trimmed remainder of a prefix decomposition; and a text whose first
non-space character is neither u/U nor 用 — in particular a leading
"Prompt:" label — is never touched. -/
theorem c8_sanitize :
    sanitizeReasoningText (( "User: hello\nPrompt: x").data) = ( "hello\nPrompt: x").data ∧
    (∀ t, tryUserAt (normalizeNewlines t) = none →
      sanitizeReasoningText t = strip (normalizeNewlines t)) ∧
    (∀ t r, tryUserAt (normalizeNewlines t) = some r →
      (∃ pre, normalizeNewlines t = pre ++ r) ∧ sanitizeReasoningText t = strip r) ∧
    (∀ t c tl, lstrip (normalizeNewlines t) = c :: tl →
      eqCI c '用' = false → eqCI c 'u' = false →
      sanitizeReasoningText t = strip (normalizeNewlines t)) := by
  refine ⟨by decide, ?_, ?_, ?_⟩
  · intro t h
    simp only [sanitizeReasoningText, h]
  · intro t r h
    constructor
    · rcases tryUserAt_suffix h with ⟨pre, hpre⟩
      exact ⟨pre, hpre.symm⟩
    · simp only [sanitizeReasoningText, h]
  · intro t c tl hl h1 h2
    have hnone : tryUserAt (normalizeNewlines t) = none := by
      unfold tryUserAt
      rw [hl]
      have hY : matchLitCI litYonghu (c :: tl) = none := matchLitCI_head_false h1
      have hU : matchLitCI litUser (c :: tl) = none := matchLitCI_head_false h2
      unfold matchAnyLitCI
      rw [hY]
      unfold matchAnyLitCI
      rw [hU]
      rfl
    simp only [sanitizeReasoningText, hnone]

/-- C8 witness: a text starting with a "Prompt:" label is returned untouched
(the embedded label is not removed even at the very start). -/
theorem c8_witness :
    sanitizeReasoningText (( "Prompt: x").data) = ( "Prompt: x").data := by
  have h := c8_sanitize.2.2.2 (( "Prompt: x").data) 'P' (( "rompt: x").data)
    (by decide) (by decide) (by decide)
  rw [h]
  decide

/-! ### The content extractor (claim C7) -/

theorem strip_nil : strip [] = [] := rfl

theorem innerPick_eq (w : Py) (hw : cleanField w = true) :
    codeGate (pyOr w (Py.pstr [])) = specField w := by
  cases w with
  | pstr t =>
    by_cases ht : t = []
    · subst ht
      rfl
    · have htr : pyTruthy (Py.pstr t) = true := by simp [pyTruthy, ht]
      have hte : t.isEmpty = false := by simp [List.isEmpty_iff, ht]
      have hst : (strip t).isEmpty = false := by
        have h2 := hw
        simp only [cleanField, hte, Bool.false_or, Bool.not_eq_true'] at h2
        exact h2
      simp [pyOr, codeGate, specField, htr, hst, hte]
  | pnull => rfl
  | pbool b =>
    cases b with
    | false => rfl
    | true => simp [cleanField, pyTruthy] at hw
  | pnum n =>
    have hn : (n != 0) = false := by
      simpa [cleanField, pyTruthy] using hw
    simp [pyOr, pyTruthy, codeGate, specField, hn, strip_nil]
  | plist l =>
    have hl : l.isEmpty = true := by
      simpa [cleanField, pyTruthy] using hw
    simp [pyOr, pyTruthy, codeGate, specField, hl, strip_nil]
  | pdict d =>
    have hd : d.isEmpty = true := by
      simpa [cleanField, pyTruthy] using hw
    simp [pyOr, pyTruthy, codeGate, specField, hd, strip_nil]

theorem fieldPick_eq (v w : Py) (hv : cleanField v = true) (hw : cleanField w = true) :
    codePick v w = specPick v w := by
  unfold codePick specPick
  cases v with
  | pstr s =>
    by_cases hs : s = []
    · subst hs
      have h0 : pyTruthy (Py.pstr []) = false := by simp [pyTruthy]
      simp only [pyOr, h0, Bool.false_eq_true, if_false, List.isEmpty_nil, if_true]
      exact innerPick_eq w hw
    · have hsr : pyTruthy (Py.pstr s) = true := by simp [pyTruthy, hs]
      have hse : s.isEmpty = false := by simp [List.isEmpty_iff, hs]
      have hss : (strip s).isEmpty = false := by
        have h2 := hv
        simp only [cleanField, hse, Bool.false_or, Bool.not_eq_true'] at h2
        exact h2
      simp [pyOr, codeGate, hsr, hss, hse]
  | pnull =>
    have h0 : pyTruthy Py.pnull = false := rfl
    simp only [pyOr, h0, Bool.false_eq_true, if_false]
    exact innerPick_eq w hw
  | pbool b =>
    cases b with
    | false =>
      simp only [pyOr, pyTruthy, Bool.false_eq_true, if_false]
      exact innerPick_eq w hw
    | true => simp [cleanField, pyTruthy] at hv
  | pnum n =>
    have hn : (n != 0) = false := by
      simpa [cleanField, pyTruthy] using hv
    simp only [pyOr, pyTruthy, hn, Bool.false_eq_true, if_false]
    exact innerPick_eq w hw
  | plist l =>
    have hl : l.isEmpty = true := by
      simpa [cleanField, pyTruthy] using hv
    simp only [pyOr, pyTruthy, hl, Bool.not_true, Bool.false_eq_true, if_false]
    exact innerPick_eq w hw
  | pdict d =>
    have hd : d.isEmpty = true := by
      simpa [cleanField, pyTruthy] using hv
    simp only [pyOr, pyTruthy, hd, Bool.not_true, Bool.false_eq_true, if_false]
    exact innerPick_eq w hw

theorem blockText_eq_spec (b : Py) (h : cleanBlock b = true) :
    blockText b = specBlockFirstString b := by
  cases b with
  | pnull => rfl
  | pbool b' => rfl
  | pnum n => rfl
  | pstr s => rfl
  | plist l => rfl
  | pdict d =>
    have h' := h
    simp only [cleanBlock, Bool.and_eq_true] at h'
    show codePick (getD d keyText) (getD d keyContent) = specPick (getD d keyText) (getD d keyContent)
    exact fieldPick_eq (getD d keyText) (getD d keyContent) h'.1 h'.2

/-- C7 counterexample: a whitespace-only `text` field is a non-empty string,
so the spec's "first non-empty string" keeps it, but the code's
`t.strip()` gate drops the block entirely: code gives "A\nB" where the claim
demands "A\n  \nB". -/
theorem c7_counterexample :
    extractTextFromContent (fun _ => []) (.plist
      [.pdict [(keyText, .pstr (( "A").data))],
       .pdict [(keyText, .pstr (( "  ").data))],
       .pdict [(keyText, .pstr (( "B").data))]]) = ( "A\nB").data ∧
    specExtractList
      [.pdict [(keyText, .pstr (( "A").data))],
       .pdict [(keyText, .pstr (( "  ").data))],
       .pdict [(keyText, .pstr (( "B").data))]] = ( "A\n  \nB").data ∧
    ( "A\nB").data ≠ ( "A\n  \nB").data :=
  ⟨by decide, by decide, by decide⟩

/-- C7 amended: `extractText` returns `""` on null, is the identity on plain
strings, never raises (it is a total function), and on ordered sequences it
agrees with the spec's "first non-empty string per mapping, join with newline,
trim" reading provided every field is clean: absent or falsy, or a string that
is empty or not whitespace-only (a whitespace-only string, or a truthy
non-string, makes the code drop what the spec's words would keep); in
particular [{"text":"A"},{"content":"B"},{}] yields "A\nB". -/
theorem c7_extract_agreement (pyStr : Py → List Char) :
    extractTextFromContent pyStr Py.pnull = [] ∧
    (∀ s, extractTextFromContent pyStr (.pstr s) = s) ∧
    (∀ blocks, (∀ b ∈ blocks, cleanBlock b = true) →
      extractTextFromContent pyStr (.plist blocks) = specExtractList blocks) ∧
    extractTextFromContent pyStr (.plist
      [.pdict [(keyText, .pstr (( "A").data))],
       .pdict [(keyContent, .pstr (( "B").data))],
       .pdict []]) = ( "A\nB").data := by
  refine ⟨rfl, fun _ => rfl, ?_, rfl⟩
  intro blocks hb
  have hfm : List.filterMap blockText blocks = List.filterMap specBlockFirstString blocks :=
    List.filterMap_congr (fun b hbm => blockText_eq_spec b (hb b hbm))
  show strip (List.intercalate ['\n'] (List.filterMap blockText blocks)) = _
  rw [hfm]
  rfl

/-! ### Claim C4: empty negative output when no negative-label match exists -/

theorem space_not_word {c : Char} (h : isSpaceChar c = true) : isWordChar c = false := by
  simp only [isSpaceChar, Bool.or_eq_true, beq_iff_eq] at h
  rcases h with ((((rfl | rfl) | rfl) | rfl) | rfl) | rfl <;> decide

theorem lstrip_decomp (s : List Char) : s = s.takeWhile isSpaceChar ++ lstrip s :=
  (List.takeWhile_append_dropWhile isSpaceChar s).symm

theorem afterLabel_decomp {s r : List Char} (h : afterLabel s = some r) :
    ∃ a c, s = a ++ c :: r ∧ isWordChar c = false := by
  unfold afterLabel at h
  split at h
  next c0 rest heq =>
    split at h
    next hcol =>
      cases h
      have hs : s = s.takeWhile isSpaceChar ++ c0 :: rest := by
        conv_lhs => rw [lstrip_decomp s]
        rw [heq]
      have hrest : rest = rest.takeWhile isSpaceChar ++ lstrip rest := lstrip_decomp rest
      rcases List.eq_nil_or_concat (rest.takeWhile isSpaceChar) with hw | ⟨w', d, hw⟩
      · have hr2 : rest = lstrip rest := by
          nth_rewrite 1 [hrest]
          rw [hw, List.nil_append]
        refine ⟨s.takeWhile isSpaceChar, c0, hs.trans (by rw [← hr2]), ?_⟩
        rcases Bool.or_eq_true_iff.mp hcol with h1 | h1
        · rw [eq_of_beq h1]
          decide
        · rw [eq_of_beq h1]
          decide
      · have hw' : rest.takeWhile isSpaceChar = w' ++ [d] := by
          rw [hw, List.concat_eq_append]
        have hd : isSpaceChar d = true := List.mem_takeWhile_imp (by rw [hw']; simp)
        refine ⟨s.takeWhile isSpaceChar ++ c0 :: w', d, ?_, space_not_word hd⟩
        conv_lhs => rw [hs, hrest, hw']
        simp [List.append_assoc]
    · cases h
  next => cases h

theorem firstColon_decomp :
    ∀ (fs : List (List Char → Option (List Char))),
      (∀ f ∈ fs, ∀ s r, f s = some r → r <:+ s) →
      ∀ s r, firstColon fs s = some r →
        ∃ a c, s = a ++ c :: r ∧ isWordChar c = false
  | [], _, s, r, h => by
    unfold firstColon at h
    cases h
  | f :: fs, hsuf, s, r, h => by
    unfold firstColon at h
    split at h
    next r' heq =>
      cases h
      rcases Option.bind_eq_some.mp heq with ⟨mid, hmid, haft⟩
      rcases hsuf f (List.mem_cons_self f fs) s mid hmid with ⟨pre, hpre⟩
      rcases afterLabel_decomp haft with ⟨a, c, hmideq, hc⟩
      exact ⟨pre ++ a, c, by rw [← hpre, hmideq, List.append_assoc], hc⟩
    next =>
      exact firstColon_decomp fs (fun g hg => hsuf g (List.mem_cons_of_mem f hg)) s r h

theorem tryPosLabelCore_decomp {s r : List Char} (h : tryPosLabelCore s = some r) :
    ∃ a c, s = a ++ c :: r ∧ isWordChar c = false := by
  unfold tryPosLabelCore at h
  rcases firstColon_decomp posAltsStepOne posAltsStepOne_suffix _ _ h with ⟨a, c, heq, hc⟩
  refine ⟨s.takeWhile isSpaceChar ++ a, c, ?_, hc⟩
  conv_lhs => rw [lstrip_decomp s]
  rw [heq, List.append_assoc]

theorem searchPosAfterNL_decomp : ∀ (s r : List Char), searchPosAfterNL s = some r →
    ∃ a c, s = a ++ c :: r ∧ isWordChar c = false
  | [], r, h => by
    unfold searchPosAfterNL at h
    cases h
  | x :: rest, r, h => by
    unfold searchPosAfterNL at h
    split at h
    · split at h
      next heq =>
        cases h
        rcases tryPosLabelCore_decomp heq with ⟨a, c, hr, hc⟩
        exact ⟨x :: a, c, by rw [List.cons_append, ← hr], hc⟩
      next =>
        rcases searchPosAfterNL_decomp rest r h with ⟨a, c, hr, hc⟩
        exact ⟨x :: a, c, by rw [List.cons_append, ← hr], hc⟩
    · rcases searchPosAfterNL_decomp rest r h with ⟨a, c, hr, hc⟩
      exact ⟨x :: a, c, by rw [List.cons_append, ← hr], hc⟩

theorem searchPosLabel_decomp {s r : List Char} (h : searchPosLabel s = some r) :
    ∃ a c, s = a ++ c :: r ∧ isWordChar c = false := by
  unfold searchPosLabel at h
  split at h
  next heq =>
    cases h
    exact tryPosLabelCore_decomp heq
  next => exact searchPosAfterNL_decomp s r h

theorem searchNegAux_none_pre : ∀ (s : List Char) (pw : Bool) (pre pre2 : List Char),
    searchNegAux pw pre s = none → searchNegAux pw pre2 s = none
  | [], _, _, _, _ => rfl
  | c :: rest, pw, pre, pre2, h => by
    unfold searchNegAux at h ⊢
    cases htry : tryNegAt pw (c :: rest) with
    | some after =>
      rw [htry] at h
      exact Option.noConfusion h
    | none =>
      rw [htry] at h
      exact searchNegAux_none_pre rest (isWordChar c) (c :: pre) (c :: pre2) h

theorem flagAfter_append : ∀ (a b : List Char) (pw : Bool),
    flagAfter pw (a ++ b) = flagAfter (flagAfter pw a) b
  | [], _, _ => rfl
  | c :: a', b, _ => flagAfter_append a' b (isWordChar c)

theorem flagAfter_concat (pw : Bool) (xs : List Char) (d : Char) :
    flagAfter pw (xs ++ [d]) = isWordChar d := by
  rw [flagAfter_append]
  rfl

/-- When the whole scan of `a ++ t` fails, the continuation scan of `t` (with
the boundary state accumulated over `a`) fails as well. -/
theorem searchNegAux_append_none : ∀ (a t : List Char) (pw : Bool) (pre pre2 : List Char),
    searchNegAux pw pre (a ++ t) = none → searchNegAux (flagAfter pw a) pre2 t = none
  | [], t, pw, pre, pre2, h => searchNegAux_none_pre t pw pre pre2 h
  | c :: a', t, pw, pre, pre2, h => by
    rw [List.cons_append] at h
    unfold searchNegAux at h
    cases htry : tryNegAt pw (c :: (a' ++ t)) with
    | some after =>
      rw [htry] at h
      exact Option.noConfusion h
    | none =>
      rw [htry] at h
      exact searchNegAux_append_none a' t (isWordChar c) (c :: pre) pre2 h

/-- C4 counterexample: with nested positive labels, the final positive output
still begins with a recognized label token ("Prompt: x"), violating the
claimed invariant that positive never begins with a label after cleanup. -/
theorem c4_counterexample :
    splitPositiveNegative (( "Prompt: Positive: Prompt: x").data) =
      (( "Prompt: x").data, []) ∧
    (tryCleanPosAt (( "Prompt: x").data)).isSome = true :=
  ⟨by decide, by decide⟩

/-- C4 amended: the first half of the invariant holds — whenever the
negative-label search finds no match in the (trimmed, normalized) text, the
returned negative component is empty.  (The second half fails: positive can
retain a leading label when labels are nested, see the counterexample.) -/
theorem c4_neg_empty_when_no_match (text : List Char)
    (h : searchNeg (strip (normalizeNewlines text)) = none) :
    (splitPositiveNegative text).2 = [] := by
  by_cases ht : text = []
  · subst ht
    rfl
  · cases hp : searchPosLabel (strip (normalizeNewlines text)) with
    | none =>
      rw [split_eq_of_no_posLabel ht hp]
      unfold splitStep23
      rw [h]
      rfl
    | some r =>
      rw [split_eq_of_posLabel ht hp]
      rcases searchPosLabel_decomp hp with ⟨a, c, hs, hcw⟩
      have hfull : strip (normalizeNewlines text) =
          (a ++ c :: r.takeWhile isSpaceChar) ++ lstrip r := by
        rw [hs]
        conv_lhs => rw [lstrip_decomp r]
        rw [List.append_assoc, List.cons_append]
      have hflag : flagAfter false (a ++ c :: r.takeWhile isSpaceChar) = false := by
        rcases List.eq_nil_or_concat (r.takeWhile isSpaceChar) with hw | ⟨w', d, hw⟩
        · rw [hw, flagAfter_concat]
          exact hcw
        · have hw2 : r.takeWhile isSpaceChar = w' ++ [d] := by
            rw [hw, List.concat_eq_append]
          have hd : isSpaceChar d = true := List.mem_takeWhile_imp (by rw [hw2]; simp)
          have hassoc : a ++ c :: (w' ++ [d]) = (a ++ c :: w') ++ [d] := by
            simp [List.append_assoc]
          rw [hw2, hassoc, flagAfter_concat]
          exact space_not_word hd
      rw [hfull] at h
      have h2 : searchNegAux (flagAfter false (a ++ c :: r.takeWhile isSpaceChar)) []
          (lstrip r) = none :=
        searchNegAux_append_none _ _ false [] [] h
      rw [hflag] at h2
      unfold splitStep23
      rw [show searchNeg (lstrip r) = none from h2]
      rfl

/-- C4 witness: the amended invariant at a concrete text with no negative
label. -/
theorem c4_witness :
    searchNeg (strip (normalizeNewlines (( "just a plain sentence").data))) = none ∧
    (splitPositiveNegative (( "just a plain sentence").data)).2 = [] :=
  ⟨by decide, c4_neg_empty_when_no_match _ (by decide)⟩

/-! ### Claim C5: conditional idempotence of the splitter

The key step is that appending the reconstruction tail `"\nNegative: " ++ n`
to a text in which the negative search fails cannot create a new match before
the inserted marker: a label literal cannot span the `'\n'` (no literal
contains a newline), a whitespace run crossing it runs into `'N'`, which is
neither a colon nor the continuation of any alternative. -/

theorem eqCI_newline {l : Char} (h : l ≠ '\n') : eqCI '\n' l = false := by
  unfold eqCI
  have h1 : ('\n' == l) = false := beq_eq_false_iff_ne.mpr (fun hh => h hh.symm)
  have h2 : decide (65 ≤ Char.toNat '\n') = false := by decide
  simp [h1, h2]

theorem matchLitCI_cross : ∀ (lit a u r : List Char), '\n' ∉ lit →
    matchLitCI lit (a ++ '\n' :: u) = some r →
    ∃ ra, matchLitCI lit a = some ra ∧ r = ra ++ '\n' :: u
  | [], a, u, r, _, h => by
    unfold matchLitCI at h
    cases h
    exact ⟨a, rfl, rfl⟩
  | l :: ls, [], u, r, hnl, h => by
    rw [List.nil_append] at h
    have hl : eqCI '\n' l = false :=
      eqCI_newline (fun hl => hnl (List.mem_cons.mpr (Or.inl hl.symm)))
    rw [matchLitCI_head_false hl] at h
    cases h
  | l :: ls, c :: a', u, r, hnl, h => by
    rw [List.cons_append] at h
    unfold matchLitCI at h ⊢
    split at h
    next heq =>
      obtain ⟨ra, hra, hr⟩ :=
        matchLitCI_cross ls a' u r (fun hm => hnl (List.mem_cons_of_mem l hm)) h
      exact ⟨ra, by rw [if_pos heq]; exact hra, hr⟩
    next => cases h

theorem lstrip_append_cons : ∀ (a : List Char) {c : Char} {rest : List Char},
    lstrip a = c :: rest → ∀ t, lstrip (a ++ t) = c :: (rest ++ t)
  | [], c, rest, h, t => by simp [lstrip] at h
  | x :: a', c, rest, h, t => by
    by_cases hx : isSpaceChar x = true
    · rw [lstrip_cons_of_space hx] at h
      rw [List.cons_append, lstrip_cons_of_space hx]
      exact lstrip_append_cons a' h t
    · have hx' : isSpaceChar x = false := by simpa using hx
      rw [lstrip_cons_of_nonspace hx'] at h
      cases h
      rw [List.cons_append, lstrip_cons_of_nonspace hx']

theorem lstrip_append_nil : ∀ (a : List Char), lstrip a = [] →
    ∀ t, lstrip (a ++ t) = lstrip t
  | [], _, _ => rfl
  | x :: a', h, t => by
    by_cases hx : isSpaceChar x = true
    · rw [lstrip_cons_of_space hx] at h
      rw [List.cons_append, lstrip_cons_of_space hx]
      exact lstrip_append_nil a' h t
    · have hx' : isSpaceChar x = false := by simpa using hx
      rw [lstrip_cons_of_nonspace hx'] at h
      simp at h

theorem afterLabel_cross {a u r : List Char} {c2 : Char}
    (hsp : isSpaceChar c2 = false) (hcol : (c2 == ':' || c2 == '：') = false)
    (h : afterLabel (a ++ '\n' :: c2 :: u) = some r) : ∃ ra, afterLabel a = some ra := by
  unfold afterLabel at h
  cases ha : lstrip a with
  | nil =>
    rw [lstrip_append_nil a ha, lstrip_cons_of_space (by decide),
      lstrip_cons_of_nonspace hsp] at h
    simp [hcol] at h
  | cons x rest =>
    rw [lstrip_append_cons a ha] at h
    by_cases hx : (x == ':' || x == '：') = true
    · exact ⟨lstrip rest, by unfold afterLabel; rw [ha]; simp [hx]⟩
    · simp only [Bool.not_eq_true] at hx
      simp [hx] at h

theorem firstColon_none_all :
    ∀ (fs : List (List Char → Option (List Char))) (s : List Char),
      firstColon fs s = none → ∀ f ∈ fs, (f s).bind afterLabel = none
  | [], _, _, _, hf => absurd hf (List.not_mem_nil _)
  | f :: fs, s, h, g, hg => by
    unfold firstColon at h
    split at h
    next => exact Option.noConfusion h
    next heq =>
      rcases List.mem_cons.mp hg with rfl | hg'
      · exact heq
      · exact firstColon_none_all fs s h g hg'

theorem firstColon_some_mem :
    ∀ (fs : List (List Char → Option (List Char))) (s r : List Char),
      firstColon fs s = some r → ∃ f ∈ fs, ∃ r', (f s).bind afterLabel = some r'
  | [], _, _, h => by
    unfold firstColon at h
    cases h
  | f :: fs, s, r, h => by
    unfold firstColon at h
    split at h
    next r' heq => exact ⟨f, List.mem_cons_self f fs, r', heq⟩
    next =>
      obtain ⟨g, hg, r', hr'⟩ := firstColon_some_mem fs s r h
      exact ⟨g, List.mem_cons_of_mem f hg, r', hr'⟩

theorem litAlt_cross (lit : List Char) (hnl : '\n' ∉ lit) (s v r : List Char)
    (h : (matchLitCI lit (s ++ '\n' :: 'N' :: 'e' :: v)).bind afterLabel = some r) :
    (matchLitCI lit s).bind afterLabel ≠ none := by
  rcases Option.bind_eq_some.mp h with ⟨mid, hmid, haft⟩
  obtain ⟨ra, hra, hmideq⟩ := matchLitCI_cross lit s ('N' :: 'e' :: v) mid hnl hmid
  subst hmideq
  obtain ⟨ra2, hra2⟩ := afterLabel_cross (by decide) (by decide) haft
  rw [hra]
  simp [hra2]

theorem negAltNegPrompt_cross (s v r : List Char)
    (h : (negAltNegPrompt (s ++ '\n' :: 'N' :: 'e' :: v)).bind afterLabel = some r) :
    (negAltNegPrompt s).bind afterLabel ≠ none := by
  rcases Option.bind_eq_some.mp h with ⟨mid, hmid, haft⟩
  unfold negAltNegPrompt at hmid
  cases h1 : matchLitCI litNegative (s ++ '\n' :: 'N' :: 'e' :: v) with
  | none =>
    rw [h1] at hmid
    exact Option.noConfusion hmid
  | some r1 =>
    rw [h1] at hmid
    obtain ⟨ra1, hra1, hr1eq⟩ := matchLitCI_cross litNegative s ('N' :: 'e' :: v) r1
      (by decide) h1
    subst hr1eq
    have hmid2 : matchLitCI litPrompt (lstrip (ra1 ++ '\n' :: 'N' :: 'e' :: v)) = some mid := hmid
    clear hmid
    cases ha : lstrip ra1 with
    | nil =>
      rw [lstrip_append_nil ra1 ha, lstrip_cons_of_space (by decide),
        lstrip_cons_of_nonspace (by decide)] at hmid2
      have hnone : matchLitCI litPrompt ('N' :: 'e' :: v) = none :=
        @matchLitCI_head_false 'p' 'N' (( "rompt").data) ('e' :: v) (by decide)
      rw [hnone] at hmid2
      exact Option.noConfusion hmid2
    | cons x rest =>
      rw [lstrip_append_cons ra1 ha, ← List.cons_append] at hmid2
      obtain ⟨ra2, hra2, hmideq⟩ := matchLitCI_cross litPrompt (x :: rest)
        ('N' :: 'e' :: v) mid (by decide) hmid2
      subst hmideq
      obtain ⟨ra3, hra3⟩ := afterLabel_cross (by decide) (by decide) haft
      have hs : negAltNegPrompt s = some ra2 := by
        unfold negAltNegPrompt
        rw [hra1]
        show matchLitCI litPrompt (lstrip ra1) = some ra2
        rw [ha]
        exact hra2
      rw [hs]
      simp [hra3]

theorem negAltDoNot_cross (s v r : List Char)
    (h : (negAltDoNot (s ++ '\n' :: 'N' :: 'e' :: v)).bind afterLabel = some r) :
    (negAltDoNot s).bind afterLabel ≠ none := by
  rcases Option.bind_eq_some.mp h with ⟨mid, hmid, haft⟩
  unfold negAltDoNot at hmid
  cases h1 : matchLitCI litDo (s ++ '\n' :: 'N' :: 'e' :: v) with
  | none =>
    rw [h1] at hmid
    exact Option.noConfusion hmid
  | some r1 =>
    rw [h1] at hmid
    obtain ⟨ra1, hra1, hr1eq⟩ := matchLitCI_cross litDo s ('N' :: 'e' :: v) r1
      (by decide) h1
    subst hr1eq
    have hmid2 : matchLitCI litNot (lstrip (ra1 ++ '\n' :: 'N' :: 'e' :: v)) = some mid := hmid
    clear hmid
    cases ha : lstrip ra1 with
    | nil =>
      rw [lstrip_append_nil ra1 ha, lstrip_cons_of_space (by decide),
        lstrip_cons_of_nonspace (by decide)] at hmid2
      have hnot : matchLitCI litNot ('N' :: 'e' :: v) = none := by
        show matchLitCI ('n' :: 'o' :: 't' :: []) ('N' :: 'e' :: v) = none
        unfold matchLitCI
        rw [if_pos (by decide)]
        exact matchLitCI_head_false (by decide)
      rw [hnot] at hmid2
      exact Option.noConfusion hmid2
    | cons x rest =>
      rw [lstrip_append_cons ra1 ha, ← List.cons_append] at hmid2
      obtain ⟨ra2, hra2, hmideq⟩ := matchLitCI_cross litNot (x :: rest)
        ('N' :: 'e' :: v) mid (by decide) hmid2
      subst hmideq
      obtain ⟨ra3, hra3⟩ := afterLabel_cross (by decide) (by decide) haft
      have hs : negAltDoNot s = some ra2 := by
        unfold negAltDoNot
        rw [hra1]
        show matchLitCI litNot (lstrip ra1) = some ra2
        rw [ha]
        exact hra2
      rw [hs]
      simp [hra3]

/-- Extending a text by the reconstruction tail cannot create a negative-label
match at a position where none existed. -/
theorem tryNegLabelAt_append_none (s v : List Char) (h : tryNegLabelAt s = none) :
    tryNegLabelAt (s ++ '\n' :: 'N' :: 'e' :: v) = none := by
  cases hc : tryNegLabelAt (s ++ '\n' :: 'N' :: 'e' :: v) with
  | none => rfl
  | some r =>
    exfalso
    obtain ⟨f, hf, r', hr'⟩ := firstColon_some_mem negAlts _ _ hc
    have hnone : (f s).bind afterLabel = none := firstColon_none_all negAlts s h f hf
    fin_cases hf
    · exact negAltNegPrompt_cross s v r' hr' hnone
    · exact litAlt_cross litNegative (by decide) s v r' hr' hnone
    · exact litAlt_cross litNeg (by decide) s v r' hr' hnone
    · exact litAlt_cross litAvoid (by decide) s v r' hr' hnone
    · exact litAlt_cross litDisallow (by decide) s v r' hr' hnone
    · exact negAltDoNot_cross s v r' hr' hnone
    · exact litAlt_cross litFuxiang (by decide) s v r' hr' hnone
    · exact litAlt_cross litFumian (by decide) s v r' hr' hnone
    · exact litAlt_cross litBimian (by decide) s v r' hr' hnone
    · exact litAlt_cross litBuyao (by decide) s v r' hr' hnone

theorem searchNegAux_cons_none {pw : Bool} {pre : List Char} {c : Char} {rest : List Char}
    (h : tryNegAt pw (c :: rest) = none) :
    searchNegAux pw pre (c :: rest) = searchNegAux (isWordChar c) (c :: pre) rest := by
  conv_lhs => rw [searchNegAux]
  rw [h]

theorem bindAfterLabel_none {o : Option (List Char)} (h : o = none) :
    o.bind afterLabel = none := by
  rw [h]
  rfl

theorem firstColon_cons_of_none {f : List Char → Option (List Char)}
    {fs : List (List Char → Option (List Char))} {s : List Char}
    (h : (f s).bind afterLabel = none) : firstColon (f :: fs) s = firstColon fs s := by
  conv_lhs => rw [firstColon]
  rw [h]

theorem tryNegLabelAt_newline (w : List Char) : tryNegLabelAt ('\n' :: w) = none := by
  have e2 : matchLitCI litNegative ('\n' :: w) = none :=
    @matchLitCI_head_false 'n' '\n' (( "egative").data) w (by decide)
  have e1 : negAltNegPrompt ('\n' :: w) = none := by
    unfold negAltNegPrompt
    rw [e2]
  have e3 : matchLitCI litNeg ('\n' :: w) = none :=
    @matchLitCI_head_false 'n' '\n' (( "eg").data) w (by decide)
  have e4 : matchLitCI litAvoid ('\n' :: w) = none :=
    @matchLitCI_head_false 'a' '\n' (( "void").data) w (by decide)
  have e5 : matchLitCI litDisallow ('\n' :: w) = none :=
    @matchLitCI_head_false 'd' '\n' (( "isallow").data) w (by decide)
  have e6a : matchLitCI litDo ('\n' :: w) = none :=
    @matchLitCI_head_false 'd' '\n' (( "o").data) w (by decide)
  have e6 : negAltDoNot ('\n' :: w) = none := by
    unfold negAltDoNot
    rw [e6a]
  have e7 : matchLitCI litFuxiang ('\n' :: w) = none :=
    @matchLitCI_head_false '负' '\n' (( "向").data) w (by decide)
  have e8 : matchLitCI litFumian ('\n' :: w) = none :=
    @matchLitCI_head_false '负' '\n' (( "面").data) w (by decide)
  have e9 : matchLitCI litBimian ('\n' :: w) = none :=
    @matchLitCI_head_false '避' '\n' (( "免").data) w (by decide)
  have e10 : matchLitCI litBuyao ('\n' :: w) = none :=
    @matchLitCI_head_false '不' '\n' (( "要").data) w (by decide)
  unfold tryNegLabelAt negAlts
  rw [firstColon_cons_of_none (bindAfterLabel_none e1),
    firstColon_cons_of_none (bindAfterLabel_none e2),
    firstColon_cons_of_none (bindAfterLabel_none e3),
    firstColon_cons_of_none (bindAfterLabel_none e4),
    firstColon_cons_of_none (bindAfterLabel_none e5),
    firstColon_cons_of_none (bindAfterLabel_none e6),
    firstColon_cons_of_none (bindAfterLabel_none e7),
    firstColon_cons_of_none (bindAfterLabel_none e8),
    firstColon_cons_of_none (bindAfterLabel_none e9),
    firstColon_cons_of_none (bindAfterLabel_none e10)]
  rfl

theorem searchNegAux_cons_some {pw : Bool} {pre : List Char} {c : Char} {rest after : List Char}
    (h : tryNegAt pw (c :: rest) = some after) :
    searchNegAux pw pre (c :: rest) = some (pre.reverse, after) := by
  conv_lhs => rw [searchNegAux]
  rw [h]

theorem tryNegAt_append_none (pw : Bool) (s v : List Char) (h : tryNegAt pw s = none) :
    tryNegAt pw (s ++ '\n' :: 'N' :: 'e' :: v) = none := by
  cases pw with
  | true => rfl
  | false => exact tryNegLabelAt_append_none s v h

/-- Scanning `a ++ tail` when `a` alone has no match walks to the tail with
the accumulated boundary state. -/
theorem searchNegAux_append_eval : ∀ (a : List Char) (pw : Bool) (pre v : List Char),
    searchNegAux pw pre a = none →
    searchNegAux pw pre (a ++ '\n' :: 'N' :: 'e' :: v) =
      searchNegAux (flagAfter pw a) (a.reverse ++ pre) ('\n' :: 'N' :: 'e' :: v)
  | [], pw, pre, v, _ => by
    simp [flagAfter]
  | c :: a', pw, pre, v, h => by
    unfold searchNegAux at h
    cases htry : tryNegAt pw (c :: a') with
    | some after =>
      rw [htry] at h
      exact Option.noConfusion h
    | none =>
      rw [htry] at h
      have htry2 : tryNegAt pw (c :: (a' ++ '\n' :: 'N' :: 'e' :: v)) = none := by
        have h2 := tryNegAt_append_none pw (c :: a') v htry
        rw [List.cons_append] at h2
        exact h2
      rw [List.cons_append, searchNegAux_cons_none htry2,
        searchNegAux_append_eval a' (isWordChar c) (c :: pre) v h]
      have hflag : flagAfter pw (c :: a') = flagAfter (isWordChar c) a' := rfl
      rw [hflag, List.reverse_cons, List.append_assoc]
      rfl

theorem tryNegAt_newline (pw : Bool) (w : List Char) : tryNegAt pw ('\n' :: w) = none := by
  cases pw with
  | true => rfl
  | false => exact tryNegLabelAt_newline w

/-- At the inserted marker the search matches via the `negative` alternative
and ends just before `n` (whose leading whitespace, if any, it absorbs). -/
theorem tryNegAt_marker (n : List Char) :
    tryNegAt false ('N' :: 'e' :: (( "gative: ").data ++ n)) = some (lstrip n) := rfl

/-- The negative search of the reconstruction finds exactly the inserted
`"Negative: "` marker: everything before it (`p ++ "\n"`) becomes the
positive segment and `n` the negative segment. -/
theorem searchNeg_recon_eval (p n : List Char) (hneg : searchNeg p = none)
    (hn : lstrip n = n) : searchNeg (recon p n) = some (p ++ ['\n'], n) := by
  have h1 : recon p n = p ++ '\n' :: 'N' :: 'e' :: (( "gative: ").data ++ n) := by
    unfold recon
    rw [show ( "Negative: ").data = 'N' :: 'e' :: ( "gative: ").data from rfl]
    simp [List.append_assoc]
  show searchNegAux false [] (recon p n) = some (p ++ ['\n'], n)
  rw [h1, searchNegAux_append_eval p false [] (( "gative: ").data ++ n) hneg,
    searchNegAux_cons_none (tryNegAt_newline _ _)]
  have hstep : searchNegAux (isWordChar '\n') ('\n' :: (p.reverse ++ []))
      ('N' :: 'e' :: (( "gative: ").data ++ n)) =
      some (('\n' :: (p.reverse ++ [])).reverse, lstrip n) :=
    searchNegAux_cons_some (tryNegAt_marker n)
  rw [hstep, hn]
  simp

/-! ### Trim facts needed to assemble the reconstruction -/

theorem dropWhile_reverse_eq_of_rstrip {n : List Char} (hn : rstrip n = n) :
    List.dropWhile isSpaceChar n.reverse = n.reverse := by
  have h2 := congrArg List.reverse hn
  rw [rstrip, List.reverse_reverse] at h2
  exact h2

theorem rstrip_append_right {x n : List Char} (hn : rstrip n = n) (hne : n ≠ []) :
    rstrip (x ++ n) = x ++ n := by
  have h1 : List.dropWhile isSpaceChar n.reverse = n.reverse :=
    dropWhile_reverse_eq_of_rstrip hn
  cases hrev : n.reverse with
  | nil =>
    exact absurd (by simpa using congrArg List.reverse hrev) hne
  | cons d w =>
    have hd : isSpaceChar d = false := by
      apply head_nonspace_of_lstrip (t := w)
      show List.dropWhile isSpaceChar (d :: w) = d :: w
      rw [← hrev]
      exact h1
    have hn2 : n = (d :: w).reverse := by
      rw [← hrev, List.reverse_reverse]
    unfold rstrip
    rw [List.reverse_append, hrev, List.cons_append,
      List.dropWhile_cons_of_neg (by simp [hd])]
    rw [← List.cons_append, ← hrev, ← List.reverse_append, List.reverse_reverse]

theorem lstrip_append_head {p : List Char} (hp : lstrip p = p) (hp0 : p ≠ [])
    (t : List Char) : lstrip (p ++ t) = p ++ t := by
  cases p with
  | nil => exact absurd rfl hp0
  | cons c p' =>
    rw [List.cons_append]
    exact lstrip_cons_of_nonspace (head_nonspace_of_lstrip hp)

theorem strip_recon {p n : List Char} (hp : strip p = p) (hn : strip n = n)
    (hp0 : p ≠ []) (hn0 : n ≠ []) : strip (recon p n) = recon p n := by
  have hl : lstrip (recon p n) = recon p n := by
    unfold recon
    rw [List.append_assoc]
    exact lstrip_append_head (lstrip_eq_self_of_strip hp) hp0 _
  unfold strip
  rw [hl]
  unfold recon
  exact rstrip_append_right (rstrip_eq_self_of_strip hn) hn0

theorem strip_append_newline {p : List Char} (hp : strip p = p) (hp0 : p ≠ []) :
    strip (p ++ ['\n']) = p := by
  unfold strip
  rw [lstrip_append_head (lstrip_eq_self_of_strip hp) hp0 ['\n']]
  unfold rstrip
  rw [List.reverse_append]
  show (List.dropWhile isSpaceChar ('\n' :: p.reverse)).reverse = p
  rw [List.dropWhile_cons_of_pos (by decide),
    dropWhile_reverse_eq_of_rstrip (rstrip_eq_self_of_strip hp), List.reverse_reverse]

/-- C5 counterexample: nested positive labels leave a "Prompt: " marker inside
the returned positive, so re-splitting the reconstruction strips it again and
returns a different pair. -/
theorem c5_counterexample :
    splitPositiveNegative (( "Prompt: Positive: Prompt: a\nNegative: blur").data) =
      (( "Prompt: a").data, ( "blur").data) ∧
    splitPositiveNegative (recon (( "Prompt: a").data) (( "blur").data)) =
      (( "a").data, ( "blur").data) ∧
    ( "a").data ≠ ( "Prompt: a").data :=
  ⟨by decide, by decide, by decide⟩

/-- C5 amended: splitting the reconstruction `positive ++ "\n" ++ "Negative: "
++ negative` recovers exactly `(positive, negative)` provided the pair is
fully clean: both parts trimmed and non-empty, the reconstruction CRLF-free
and containing no positive-label marker, the positive free of negative-label
matches, and both parts fixed points of the residual cleanup (no label marker
survives in them).  Each hypothesis is forced by a concrete failure: a
surviving "Prompt:" in the positive, or a residual "Negative:" in the
negative, makes re-splitting return a different pair. -/
theorem c5_idempotent_when_clean (p n : List Char)
    (hp : strip p = p) (hn : strip n = n) (hp0 : p ≠ []) (hn0 : n ≠ [])
    (hnorm : normalizeNewlines (recon p n) = recon p n)
    (hpos : searchPosLabel (recon p n) = none)
    (hneg : searchNeg p = none)
    (hcp : cleanupPos p = p) (hcn : cleanupNeg n = n) :
    splitPositiveNegative (recon p n) = (p, n) := by
  have hne : recon p n ≠ [] := by
    cases p with
    | nil => exact absurd rfl hp0
    | cons c p' => simp [recon]
  have hstr : strip (normalizeNewlines (recon p n)) = recon p n := by
    rw [hnorm]
    exact strip_recon hp hn hp0 hn0
  rw [split_eq_of_no_posLabel hne (by rw [hstr]; exact hpos), hstr]
  unfold splitStep23
  rw [searchNeg_recon_eval p n hneg (lstrip_eq_self_of_strip hn)]
  show (strip (cleanupPos (strip (p ++ ['\n']))), strip (cleanupNeg (strip n))) = (p, n)
  rw [strip_append_newline hp hp0, hcp, hp, hn, hcn, hn]

/-- C5 witness: the amended idempotence applied to the clean pair
("a cat", "a dog"). -/
theorem c5_witness :
    splitPositiveNegative (recon (( "a cat").data) (( "a dog").data)) =
      (( "a cat").data, ( "a dog").data) :=
  c5_idempotent_when_clean (( "a cat").data) (( "a dog").data)
    (by decide) (by decide) (by decide) (by decide) (by decide) (by decide)
    (by decide) (by decide) (by decide)

/-- C7 witness: agreement at the spec's own example sequence. -/
theorem c7_witness :
    extractTextFromContent (fun _ => []) (.plist
      [.pdict [(keyText, .pstr (( "A").data))],
       .pdict [(keyContent, .pstr (( "B").data))],
       .pdict []]) =
    specExtractList
      [.pdict [(keyText, .pstr (( "A").data))],
       .pdict [(keyContent, .pstr (( "B").data))],
       .pdict []] :=
  (c7_extract_agreement (fun _ => [])).2.2.1 _ (by decide)

end OpenAIAsk
